import Mathlib

set_option allowUnsafeReducibility true
attribute [semireducible] Rat.sub Rat.add Rat.mul Rat.inv Rat.ofScientific

/-!
Shallow embedding of the hex-world chunk generator of `my-hex-game`
(`chunk_manager.py`, with the arrival-location logic of `location_manager.py`).

Directions are the literal Python strings ("q+1,r+0", ...); chunk data is an
insertion-ordered association list mirroring Python dicts; the random module is
modelled by two streams (one of rationals for `random.random()`, one of indices
for `random.choice`); the content-generation collaborator is modelled by its
parsed outcome, `none` standing for any raised failure (network error,
malformed JSON, missing key).
-/

namespace HexGame

/-- Python `s.startswith(pre)`: prefix test on the character lists (kept at
the character level so that evaluation stays definitional). -/
def pyStartsWith (t pre : String) : Bool := pre.data.isPrefixOf t.data

/-- Python `s.replace(pat, rep)` on character lists: replace every
non-overlapping occurrence, scanning left to right. Fuel is the length of the
string, enough because each step consumes at least one character. -/
def replaceAux (pat rep : List Char) : Nat → List Char → List Char
  | 0, s => s
  | _, [] => []
  | fuel+1, c :: cs =>
    if pat ≠ [] ∧ pat.isPrefixOf (c :: cs) then
      rep ++ replaceAux pat rep fuel ((c :: cs).drop pat.length)
    else
      c :: replaceAux pat rep fuel cs

/-- Python `s.replace(pat, rep)`. -/
def pyReplace (s pat rep : String) : String :=
  ⟨replaceAux pat.data rep.data s.data.length s.data⟩

/-- Python `s.split(sep)` for a one-character separator. -/
def splitAux (sep : Char) : List Char → List Char → List String
  | [], acc => [⟨acc.reverse⟩]
  | c :: cs, acc =>
    if c = sep then ⟨acc.reverse⟩ :: splitAux sep cs []
    else splitAux sep cs (c :: acc)

/-- Python `s.split(sep)` (one-character separator). -/
def pySplit (s : String) (sep : Char) : List String :=
  splitAux sep s.data []

/-- The helper `flip` inside `_flip_direction`: if the part contains '+',
replace every '+' by '-'; otherwise replace every '-' by '+'. -/
def flipPart (s : String) : String :=
  if '+' ∈ s.data then pyReplace s "+" "-" else pyReplace s "-" "+"

/-- `ChunkManager._flip_direction`: split on ',', flip each of the first two
parts, rejoin with ','. -/
def flipDirection (dir : String) : String :=
  match pySplit dir ',' with
  | p0 :: p1 :: _ => flipPart p0 ++ "," ++ flipPart p1
  | p0 :: [] => flipPart p0
  | [] => ""

/-- `HEX_NEIGHBORS`: the six axial directions with their coordinate deltas. -/
def hexNeighbors : List (String × Int × Int) :=
  [("q+1,r+0", 1, 0),
   ("q+1,r-1", 1, -1),
   ("q+0,r-1", 0, -1),
   ("q-1,r+0", -1, 0),
   ("q-1,r+1", -1, 1),
   ("q+0,r+1", 0, 1)]

/-- The six direction strings (also the `all_directions` list inside
`_apply_neighbor_backlinks`, which lists the same six values). -/
def allDirections : List String :=
  ["q+1,r+0", "q+1,r-1", "q+0,r-1", "q-1,r+0", "q-1,r+1", "q+0,r+1"]

/-! ## Data model

A `Location` mirrors the per-location dict built by `get_or_create_chunk_data`
(fields `connections`, `visible`, `description`, `history_of_events`, `sites`)
plus the `backstory` / `notable_features` keys added later by
`_generate_location_names_and_stories` (`none` = key absent). -/

/-- A site entry as normalized by `_generate_ai_descriptions` (fields
`discovered` and `description` always present after normalization). -/
structure Site where
  discovered : Bool
  description : String
deriving DecidableEq, Repr

/-- One location dict of a chunk. -/
structure Location where
  connections : List String
  visible : Bool
  description : String
  history : List String
  sites : List (String × Site)
  backstory : Option String := none
  notable : Option (List String) := none
deriving DecidableEq, Repr

/-- A chunk: the `"locations"` dict, as an insertion-ordered association list
(Python dicts preserve insertion order). -/
structure Chunk where
  locations : List (String × Location)
deriving DecidableEq, Repr

/-- The `chunks` table: coordinates to chunk data. -/
def Store := List ((Int × Int) × Chunk)

instance : DecidableEq Store := by unfold Store; infer_instance

/-- Association-list lookup (Python `dict[k]` / `k in dict`). -/
def alookup {α : Type} : List (String × α) → String → Option α
  | [], _ => none
  | (k, v) :: rest, key => if k = key then some v else alookup rest key

/-- Replace the value at a key, keeping its position (Python in-place update). -/
def aset {α : Type} : List (String × α) → String → α → List (String × α)
  | [], _, _ => []
  | (k, v) :: rest, key, nv =>
    if k = key then (k, nv) :: rest else (k, v) :: aset rest key nv

/-- Python dict write `d[k] = v`: overwrite in place if present, else append. -/
def dinsert {α : Type} (d : List (String × α)) (key : String) (v : α) :
    List (String × α) :=
  if (alookup d key).isSome then aset d key v else d ++ [(key, v)]

/-- `SELECT data_json FROM chunks WHERE q=? AND r=?`. -/
def storeGet : Store → Int → Int → Option Chunk
  | [], _, _ => none
  | ((qr, c) :: rest : List ((Int × Int) × Chunk)), q, r =>
    if qr = (q, r) then some c else storeGet rest q r

/-- `INSERT INTO chunks (q, r, data_json) VALUES (?,?,?)`. -/
def storePut (s : Store) (q r : Int) (c : Chunk) : Store :=
  List.append s [((q, r), c)]

/-- Names of a chunk's locations, in dict order (`list(d.keys())`). -/
def Chunk.names (c : Chunk) : List String := c.locations.map (·.1)

/-- Append an edge token to the named location's connections list. -/
def Chunk.appendConn (c : Chunk) (ln tok : String) : Chunk :=
  ⟨c.locations.map fun p =>
    if p.1 = ln then (p.1, { p.2 with connections := p.2.connections ++ [tok] })
    else p⟩

/-! ## Randomness

`random.random()` is a stream of rationals in `[0,1)`; the index drawn inside
`random.choice(seq)` (CPython's `_randbelow(len(seq))`) is a stream of
naturals. Two counters track how much of each stream was consumed. -/

/-- A random source: the values `random.random()` will return, and the indices
`random.choice` will pick. -/
structure Rng where
  floats : Nat → ℚ
  ints : Nat → Nat

/-- Consumption state of the two streams. -/
structure RState where
  fi : Nat
  ii : Nat
deriving DecidableEq, Repr

/-- `random.random()`. -/
def pyRandom (g : Rng) (s : RState) : ℚ × RState :=
  (g.floats s.fi, { s with fi := s.fi + 1 })

/-- `random.choice(xs)`: `none` only on an empty sequence (where Python would
raise; the generator never calls it on an empty one). -/
def pyChoice {α : Type} (g : Rng) (s : RState) (xs : List α) :
    Option α × RState :=
  (xs.get? (g.ints s.ii % xs.length), { s with ii := s.ii + 1 })

/-! ## Step 2: `_roll_secret_count` -/

/-- The loop of `_roll_secret_count`: up to `n` draws left, `count` successes
so far; each draw succeeds when `random.random() < 0.10`; break at 2. -/
def rollAux (g : Rng) : Nat → Nat → RState → Nat × RState
  | 0, count, s => (count, s)
  | n + 1, count, s =>
    let us := pyRandom g s
    if us.1 < 1/10 then
      if count + 1 = 2 then (2, us.2)
      else rollAux g n (count + 1) us.2
    else rollAux g n count us.2

/-- `ChunkManager._roll_secret_count`: 10 rolls of 10% each, early stop at 2. -/
def rollSecretCount (g : Rng) (s : RState) : Nat × RState :=
  rollAux g 10 0 s

/-- The placeholder names of step 1 and 2: `LocationA..LocationC` then
`Secret1..Secret{secretCount}`. -/
def buildLocNames (secretCount : Nat) : List String :=
  (List.range 3).map (fun i => "Location" ++ ⟨[Char.ofNat (65 + i)]⟩) ++
    (List.range secretCount).map (fun s => "Secret" ++ toString (s + 1))

/-- The default location dict built for each placeholder name. -/
def defaultLocation (ln : String) : Location :=
  { connections := []
    visible := true
    description := "A default location named " ++ ln
    history := []
    sites := [] }

/-! ## Neighbor data (`get_neighbor_data`) -/

/-- `get_neighbor_data`: for each of the six directions, the neighbor chunk
from the store, or an empty `{"locations": {}}` when absent. -/
def getNeighborData (store : Store) (q r : Int) : List (String × Chunk) :=
  hexNeighbors.map fun (dir, dq, dr) =>
    (dir, (storeGet store (q + dq) (r + dr)).getD ⟨[]⟩)

/-! ## Step 3: `_apply_neighbor_backlinks` -/

/-- The locations of `neighborData` whose connections contain `backExit`
(the `connecting_locs` list, in dict order). -/
def connectingLocs (neighborData : Chunk) (backExit : String) : List String :=
  (neighborData.locations.filter fun p => backExit ∈ p.2.connections).map (·.1)

/-- Locations of the chunk without an `exit:dir` connection yet
(the `available_locs` comprehension, in dict order). -/
def availableLocs (c : Chunk) (dir : String) : List String :=
  (c.locations.filter fun p => ("exit:" ++ dir) ∉ p.2.connections).map (·.1)

/-- Processing of one direction of `connecting_by_dir`: choose an available
location at random and append `exit:dir` to it; the second `if not connected`
block recomputes the same list, so it never fires when the first block found
a candidate, and finds none when the first block found none. -/
def processBacklinkDir (g : Rng) (dir : String) (c : Chunk) (s : RState) :
    Chunk × RState :=
  let avail := availableLocs c dir
  if avail ≠ [] then
    let ch := pyChoice g s avail
    match ch.1 with
    | some chosen => (c.appendConn chosen ("exit:" ++ dir), ch.2)
    | none => (c, ch.2)
  else
    let avail2 := availableLocs c dir
    if avail2 ≠ [] then
      let ch := pyChoice g s avail2
      match ch.1 with
      | some chosen => (c.appendConn chosen ("exit:" ++ dir), ch.2)
      | none => (c, ch.2)
    else (c, s)

/-- `_apply_neighbor_backlinks`: gather, for each of the six directions, the
neighbor locations pointing at us (`connecting_by_dir`, in `all_directions`
order, keeping only directions with a nonempty list — `get_neighbor_data`
always populates every key, and `{"locations": {}}` is truthy in Python, so
the DB-reload branch is dead); then give each gathered direction one exit
edge on a random still-available location. -/
def applyNeighborBacklinks (g : Rng) (c : Chunk)
    (neighbors : List (String × Chunk)) (s : RState) : Chunk × RState :=
  let dirsWithConns := allDirections.filter fun dir =>
    connectingLocs ((alookup neighbors dir).getD ⟨[]⟩)
      ("exit:" ++ flipDirection dir) ≠ []
  dirsWithConns.foldl
    (fun (acc : Chunk × RState) dir => processBacklinkDir g dir acc.1 acc.2)
    (c, s)

/-! ## Step 4: `_add_additional_exits` -/

/-- The `used_edges` set: every direction appearing as an `exit:` token in some
location's connections, with the `exit:` prefix removed (`c.replace`), deduped
in first-appearance order (only membership and size of the set are used). -/
def usedEdges (c : Chunk) : List String :=
  c.locations.foldl
    (fun acc p =>
      p.2.connections.foldl
        (fun acc2 t =>
          if pyStartsWith t "exit:" then
            let edge := pyReplace t "exit:" ""
            if edge ∈ acc2 then acc2 else acc2 ++ [edge]
          else acc2)
        acc)
    []

/-- The `unexplored_dirs` list: directions not yet used whose neighbor chunk
has not been generated. -/
def unexploredDirs (store : Store) (q r : Int) (used : List String) :
    List String :=
  hexNeighbors.filterMap fun (dir, dq, dr) =>
    if dir ∈ used then none
    else if (storeGet store (q + dq) (r + dr)).isSome then none
    else some dir

/-- The `prob_map` dict: probability sequences for 1–5 already-connected
edges. There is no entry for 0 (Python raises `KeyError` there). -/
def probMap : Nat → Option (List ℚ)
  | 1 => some [1, 4/5, 3/5, 2/5, 1/5]
  | 2 => some [4/5, 3/5, 2/5, 1/5]
  | 3 => some [3/5, 2/5, 1/5]
  | 4 => some [2/5, 1/5]
  | 5 => some [1/5]
  | _ => none

/-- The `for prob in probs` loop: break when no unexplored direction remains;
draw once per probability; on success (`random.random() >= 1.0 - prob`) pick a
random unexplored direction, remove it, and append the exit to a random
location lacking it (when one exists); on failure continue with the next
probability. -/
def exitLoop (g : Rng) : List ℚ → List String → Chunk → RState →
    Chunk × RState
  | [], _, c, s => (c, s)
  | p :: rest, dirs, c, s =>
    if dirs = [] then (c, s)
    else
      let us := pyRandom g s
      if 1 - p ≤ us.1 then
        let chd := pyChoice g us.2 dirs
        match chd.1 with
        | some chosen =>
          let dirs' := dirs.erase chosen
          let avail := availableLocs c chosen
          if avail ≠ [] then
            let chl := pyChoice g chd.2 avail
            match chl.1 with
            | some ln =>
              exitLoop g rest dirs' (c.appendConn ln ("exit:" ++ chosen)) chl.2
            | none => exitLoop g rest dirs' c chl.2
          else exitLoop g rest dirs' c chd.2
        | none => exitLoop g rest dirs c chd.2
      else exitLoop g rest dirs c us.2

/-- `_add_additional_exits`: compute used edges and unexplored directions,
return unchanged when 6 or more edges are used, look up the probability
sequence (`KeyError` when 0 edges are used), and run the loop. -/
def addAdditionalExits (g : Rng) (store : Store) (q r : Int) (c : Chunk)
    (s : RState) : Except String (Chunk × RState) :=
  let used := usedEdges c
  let unexplored := unexploredDirs store q r used
  if used.length ≥ 6 then .ok (c, s)
  else
    match probMap used.length with
    | none => .error "KeyError"
    | some probs => .ok (exitLoop g probs unexplored c s)

/-! ## Step 5: `_connect_local_locations` -/

/-- Python `set.add` on an insertion-ordered list model. -/
def setAdd (xs : List String) (x : String) : List String :=
  if x ∈ xs then xs else xs ++ [x]

/-- The adjacency gather: connections that are names of locations of the same
chunk (ignoring `exit:` tokens, which are never location names). -/
def gatherLocal (names conns : List String) : List String :=
  conns.foldl (fun acc t => if t ∈ names then setAdd acc t else acc) []

/-- The `adjacency` dict over all locations. -/
def gatherAdj (c : Chunk) : List (String × List String) :=
  c.locations.map fun p => (p.1, gatherLocal c.names p.2.connections)

/-- Read an adjacency set. -/
def adjGet (adj : List (String × List String)) (ln : String) : List String :=
  (alookup adj ln).getD []

/-- `adjacency[ln].add(x)`. -/
def adjAdd (adj : List (String × List String)) (ln x : String) :
    List (String × List String) :=
  aset adj ln (setAdd (adjGet adj ln) x)

/-- One dequeue of the BFS: visit every unvisited neighbor (the source appends
each such neighbor to the queue twice; the second `visited.add` is a no-op). -/
def bfsStep (adj : List (String × List String)) (node : String)
    (queue visited : List String) : List String × List String :=
  (adjGet adj node).foldl
    (fun acc nxt =>
      if nxt ∈ acc.2 then acc
      else (acc.1 ++ [nxt, nxt], acc.2 ++ [nxt]))
    (queue, visited)

/-- The BFS `while Q` loop, with fuel bounding the number of dequeues. -/
def bfsAux (adj : List (String × List String)) :
    Nat → List String → List String → List String
  | 0, _, visited => visited
  | _ + 1, [], visited => visited
  | fuel + 1, node :: queue, visited =>
    let step := bfsStep adj node queue visited
    bfsAux adj fuel step.1 step.2

/-- `bfs(start, visited)` with `visited = {start}` initially; at most
`2n - 1` nodes are ever enqueued, so fuel `2n + 1` never runs out. -/
def bfs (adj : List (String × List String)) (start : String) (n : Nat) :
    List String :=
  bfsAux adj (2 * n + 1) [start] [start]

/-- The connected-components pass: BFS from each not-yet-visited location, in
dict order. -/
def computeComponents (adj : List (String × List String))
    (names : List String) : List (List String) :=
  (names.foldl
    (fun (acc : List (List String) × List String) ln =>
      if ln ∈ acc.2 then acc
      else
        let comp := bfs adj ln names.length
        (acc.1 ++ [comp], acc.2 ++ comp.filter (· ∉ acc.2)))
    ([], [])).1

/-- Python `c1 | c2` on insertion-ordered set models. -/
def setUnion (a b : List String) : List String := a ++ b.filter (· ∉ a)

/-- The `while len(components) > 1` merge loop, with the components list held
in reversed order so that Python's `pop()` is the head. One bidirectional
local edge joins a representative (`next(iter(..))`, the first inserted
element) of the two most recently pushed components; fuel is the number of
components, enough since every iteration removes one. -/
def mergeAux : Nat → List (List String) → List (String × List String) →
    List (String × List String)
  | 0, _, adj => adj
  | fuel + 1, comps, adj =>
    match comps with
    | c1 :: c2 :: rest =>
      match c1, c2 with
      | l1 :: _, l2 :: _ =>
        mergeAux fuel (setUnion c1 c2 :: rest) (adjAdd (adjAdd adj l1 l2) l2 l1)
      | _, _ => adj
    | _ => adj

/-- Python's string `<`: lexicographic comparison by code point. -/
def strLt : List Char → List Char → Bool
  | [], [] => false
  | [], _ :: _ => true
  | _ :: _, [] => false
  | a :: as, b :: bs => if a < b then true else if b < a then false else strLt as bs

/-- Insertion into a sorted list under Python's string `<`. -/
def insertSorted (x : String) : List String → List String
  | [] => [x]
  | y :: ys => if strLt x.data y.data then x :: y :: ys else y :: insertSorted x ys

/-- Python `sorted` (insertion sort; agrees with any stable sort). -/
def pySorted (xs : List String) : List String := xs.foldr insertSorted []

/-- Python `set(xs)` as a first-appearance-ordered dedup. -/
def dedupKeepFirst (xs : List String) : List String := xs.foldl setAdd []

/-- `_connect_local_locations`: gather the local adjacency, compute connected
components, merge them pairwise with fresh bidirectional edges, then write
back `sorted(set(local ++ exits))` as each location's connections. -/
def connectLocalLocations (c : Chunk) : Chunk :=
  let adj0 := gatherAdj c
  let comps := computeComponents adj0 c.names
  let adj := mergeAux comps.length comps.reverse adj0
  ⟨c.locations.map fun p =>
    let localConns := pySorted (adjGet adj p.1)
    let oldExits := p.2.connections.filter (fun t => pyStartsWith t "exit:")
    (p.1, { p.2 with connections := pySorted (dedupKeepFirst (localConns ++ oldExits)) })⟩

/-! ## Step 6: `_generate_location_names_and_stories`

The collaborator's outcome is its parsed JSON: an ordered mapping from old
location name to the four generated fields. `none` stands for any raised
failure (request error, no JSON found, parse error, missing key), which the
`except` branch turns into returning the chunk unchanged. -/

/-- One entry of the naming collaborator's response. -/
structure NameDetails where
  newName : String
  backstory : String
  currentState : String
  notableFeatures : List String
deriving DecidableEq, Repr

/-- `_generate_location_names_and_stories` after the response is parsed:
build the old-name-to-new-name mapping, rebuild the locations dict in
response order keeping only old names present in the chunk, update the
content fields, and rename local connections through the mapping
(`exit:` tokens are kept as they are). -/
def generateNamesAndStories (c : Chunk)
    (resp : Option (List (String × NameDetails))) : Chunk :=
  match resp with
  | none => c
  | some nd =>
    let nameMapping : List (String × String) := nd.map fun p => (p.1, p.2.newName)
    let newLocations := nd.foldl
      (fun acc (p : String × NameDetails) =>
        match alookup c.locations p.1 with
        | none => acc
        | some loc =>
          let loc' :=
            { loc with
              description := p.2.currentState
              backstory := some p.2.backstory
              notable := some p.2.notableFeatures
              history := []
              connections := loc.connections.map fun conn =>
                if pyStartsWith conn "exit:" then conn
                else (alookup nameMapping conn).getD conn }
          dinsert acc p.2.newName loc')
      ([] : List (String × Location))
    ⟨newLocations⟩

/-! ## Step 7: `_generate_ai_descriptions` -/

/-- A site entry of the description collaborator's parsed response: `none`
models a value that is not a dict (the source deletes it); missing fields
are defaulted during normalization. -/
structure SiteJson where
  discovered : Option Bool
  description : Option String
deriving DecidableEq, Repr

/-- One location of the description collaborator's parsed response. `sites`
is `none` when missing or not a dict (normalized to `{}`); `description` and
`history_of_events` are defaulted when missing; `connections`, `backstory`
and `notable_features` are taken from the response only when the location is
not in (or has no such key in) the builder's chunk. -/
structure DescLoc where
  connections : List String := []
  backstory : Option String := none
  notable : Option (List String) := none
  sites : Option (List (String × Option SiteJson)) := none
  description : Option String := none
  history : Option (List String) := none
deriving DecidableEq, Repr

/-- The site-normalization loop: delete non-dict sites, default `discovered`
to `True` and `description` to `"A site called {name}"`. -/
def normalizeSites (sites : List (String × Option SiteJson)) :
    List (String × Site) :=
  sites.filterMap fun p =>
    match p.2 with
    | none => none
    | some sj =>
      some (p.1, { discovered := sj.discovered.getD true
                   description := sj.description.getD ("A site called " ++ p.1) })

/-- `_generate_ai_descriptions` after the response is parsed. On success the
returned locations are the response's keys in response order: connections
(and, when present, backstory and notable features) are restored from the
builder's chunk for keys the chunk knows, sites are normalized, visibility is
recomputed from the `Secret` name prefix, and missing description/history are
defaulted. On failure (`none`) every location of the builder's chunk keeps
its connections and gets default content. -/
def generateAiDescriptions (c : Chunk)
    (resp : Option (List (String × DescLoc))) : Chunk :=
  match resp with
  | none =>
    ⟨c.locations.map fun p =>
      (p.1, { p.2 with
              visible := ¬ pyStartsWith p.1 "Secret"
              description := "A default location named " ++ p.1
              history := []
              sites := [] })⟩
  | some rs =>
    ⟨rs.map fun (p : String × DescLoc) =>
      let fromChunk := alookup c.locations p.1
      let conns :=
        match fromChunk with
        | some orig => orig.connections
        | none => p.2.connections
      let backstory :=
        match fromChunk with
        | some orig => if orig.backstory.isSome then orig.backstory else p.2.backstory
        | none => p.2.backstory
      let notable :=
        match fromChunk with
        | some orig => if orig.notable.isSome then orig.notable else p.2.notable
        | none => p.2.notable
      (p.1,
        { connections := conns
          visible := ¬ pyStartsWith p.1 "Secret"
          description := p.2.description.getD ("A default location named " ++ p.1)
          history := p.2.history.getD []
          sites := normalizeSites (p.2.sites.getD [])
          backstory := backstory
          notable := notable })⟩

/-! ## `get_or_create_chunk_data` -/

/-- `ChunkManager.get_or_create_chunk_data`: return the stored chunk when the
coordinate is present; otherwise build placeholders, add the arrival backlink
when `fromDir` is given, run steps 3–5, run both collaborator steps, insert
the result into the store and return it. `Except.error` models the uncaught
`KeyError` of step 4. -/
def getOrCreate (store : Store) (q r : Int) (fromDir : Option String)
    (g : Rng) (s : RState)
    (aiNames : Option (List (String × NameDetails)))
    (aiDesc : Option (List (String × DescLoc))) :
    Except String (Chunk × Store) :=
  match storeGet store q r with
  | some c => .ok (c, store)
  | none =>
    let roll := rollSecretCount g s
    let locNames := buildLocNames roll.1
    let c0 : Chunk := ⟨locNames.map fun ln => (ln, defaultLocation ln)⟩
    let c1 :=
      match fromDir, locNames with
      | some fd, entry :: _ => c0.appendConn entry ("exit:" ++ flipDirection fd)
      | _, _ => c0
    let neighbors := getNeighborData store q r
    let cs2 := applyNeighborBacklinks g c1 neighbors roll.2
    match addAdditionalExits g store q r cs2.1 cs2.2 with
    | .error e => .error e
    | .ok cs3 =>
      let c4 := connectLocalLocations cs3.1
      let c5 := generateNamesAndStories c4 aiNames
      let final := generateAiDescriptions c5 aiDesc
      .ok (final, storePut store q r final)

/-! ## `LocationManager.do_exit_chunk` (arrival-location selection) -/

/-- Lines 55–70 of `location_manager.py`: the arrival location in the new
chunk is the first location whose connections contain
`exit:{flip(direction)}`; when none exists, the fallback is the chunk's
first location (`list(keys())[0]`). -/
def arrivalLocation (newChunk : Chunk) (data : String) : Option String :=
  let backEdge := "exit:" ++ flipDirection data
  match newChunk.locations.find? (fun p => backEdge ∈ p.2.connections) with
  | some p => some p.1
  | none => (newChunk.locations.head?).map (·.1)

/-! ## Verification -/

/-- Number of locations of a chunk whose connections list contains the given
edge token. -/
def countLocsWithToken (c : Chunk) (tok : String) : Nat :=
  (c.locations.filter fun p => tok ∈ p.2.connections).length

/-- A stored location dict with the given connections and default content
fields, as found in the neighbor chunks of the scenarios below. -/
def storedLoc (conns : List String) : Location :=
  { connections := conns
    visible := true
    description := ""
    history := []
    sites := [] }

/-- Deterministic random source: the first ten floats are 1/2 (every secret
roll fails), all later floats are 0 (among the frontier probabilities only a
1.0 draw succeeds); every choice index is 0 (first candidate). -/
def rngHalf : Rng := ⟨fun n => if n < 10 then 1/2 else 0, fun _ => 0⟩

/-- The result of `rollAux` is the capped success count: successes of the
would-be draws, capped at 2 (stopping early at the second success skips only
draws that could no longer change the count). -/
theorem rollAux_spec (g : Rng) (n : Nat) :
    ∀ (count : Nat) (s : RState), count < 2 →
      (rollAux g n count s).1 =
        min 2 (count +
          ((List.range n).filter fun i => g.floats (s.fi + i) < 1/10).length) := by
  induction n with
  | zero =>
    intro count s h
    simp only [rollAux, List.range_zero, List.filter_nil, List.length_nil,
      Nat.add_zero]
    omega
  | succ n ih =>
    intro count s h
    have hshift :
        ((List.range (n + 1)).filter fun i => g.floats (s.fi + i) < 1/10).length =
          (if g.floats s.fi < 1/10 then 1 else 0) +
            ((List.range n).filter fun i =>
              g.floats ((s.fi + 1) + i) < 1/10).length := by
      rw [List.range_succ_eq_map, List.filter_cons, List.filter_map]
      have hp : ((fun i => decide (g.floats (s.fi + i) < 1/10)) ∘ Nat.succ) =
          fun i => decide (g.floats ((s.fi + 1) + i) < 1/10) := by
        funext i
        have he : s.fi + Nat.succ i = s.fi + 1 + i := by omega
        simp [Function.comp, he]
      rw [hp]
      by_cases hu : g.floats s.fi < 1/10
      · have hu' : g.floats s.fi < (10:ℚ)⁻¹ := by rwa [one_div] at hu
        simp [Nat.add_zero, hu', List.length_map]
        try omega
      · have hu' : ¬ g.floats s.fi < (10:ℚ)⁻¹ := by rwa [one_div] at hu
        simp [Nat.add_zero, hu', List.length_map]
        try omega
    rw [hshift]
    simp only [rollAux, pyRandom]
    by_cases hu : g.floats s.fi < 1/10
    · rw [if_pos hu, if_pos hu]
      by_cases h2 : count + 1 = 2
      · rw [if_pos h2]
        omega
      · rw [if_neg h2]
        have hr := ih (count + 1) { s with fi := s.fi + 1 } (by omega)
        simp only at hr
        rw [hr]
        omega
    · rw [if_neg hu, if_neg hu]
      have hr := ih count { s with fi := s.fi + 1 } h
      simp only at hr
      rw [hr]
      omega

/-- The secret count is at most 2. -/
theorem rollSecret_le_two (g : Rng) (s : RState) : (rollSecretCount g s).1 ≤ 2 := by
  rw [rollSecretCount, rollAux_spec g 10 0 s (by omega)]
  omega

/-- Claim C7: node synthesis allocates exactly 3 normal placeholders; the
secret count is the success count of the capped Bernoulli process (up to 10
draws succeeding when the drawn float is below 0.10, capped at 2), so it lies
in {0,1,2} and the synthesized node list has 3 to 5 names. -/
theorem c7_node_synthesis_counts (g : Rng) (s : RState) :
    (rollSecretCount g s).1 =
      min 2 (((List.range 10).filter fun i => g.floats (s.fi + i) < 1/10).length) ∧
    (rollSecretCount g s).1 ≤ 2 ∧
    (buildLocNames (rollSecretCount g s).1).length = 3 + (rollSecretCount g s).1 ∧
    3 ≤ (buildLocNames (rollSecretCount g s).1).length ∧
    (buildLocNames (rollSecretCount g s).1).length ≤ 5 := by
  have hs := rollAux_spec g 10 0 s (by omega)
  have hlen : ∀ k, (buildLocNames k).length = 3 + k := by
    intro k
    simp [buildLocNames]
  have hle := rollSecret_le_two g s
  refine ⟨?_, hle, hlen _, ?_, ?_⟩
  · rw [rollSecretCount, hs]; omega
  · rw [hlen]; omega
  · rw [hlen]; omega

/-- Claim C8 (evaluation at the failing input): `_flip_direction` flips the
sign of a zero component, so `"q+1,r+0"` maps to `"q-1,r-0"`, which is not
one of the six direction values; on the six values the function is an
involution without fixed points and with pairwise distinct results, but only
two of the six images land back in the direction set. -/
theorem c8_flip_direction_eval :
    flipDirection "q+1,r+0" = "q-1,r-0" ∧
    ("q-1,r-0" ∈ allDirections) = False ∧
    (allDirections.map flipDirection).Nodup ∧
    (allDirections.all fun d => flipDirection (flipDirection d) == d) = true ∧
    (allDirections.all fun d => !(flipDirection d == d)) = true ∧
    (allDirections.map flipDirection).filter (· ∈ allDirections) =
      ["q-1,r+1", "q+1,r-1"] := by
  decide

/-- Claim C4 (evaluation at the failing input): generating chunk (0,0) with
no arrival direction on an empty store raises for every random source — no
exit edge is assigned, and `prob_map` has no entry for 0 connected edges, so
the dict access raises `KeyError` before frontier expansion can run. -/
theorem c4_first_chunk_generation_raises (g : Rng) (s : RState) :
    getOrCreate [] 0 0 none g s none none = .error "KeyError" := by
  have hle := rollSecret_le_two g s
  simp only [getOrCreate, storeGet]
  set k := (rollSecretCount g s).1 with hk
  interval_cases k <;> rfl

/-- Chunk A of the claim C1 scenario: stored at (0,0), one location holding
the exit edge toward (1,0). -/
def c1ChunkA : Chunk := ⟨[("LocA", storedLoc ["exit:q+1,r+0"])]⟩

/-- The store of the claim C1 scenario: chunk A at (0,0) points at (1,0);
chunk C at (1,-1) points at (1,0), so the player can arrive at (1,0) from
(1,-1). -/
def c1Store : Store :=
  [((0, 0), c1ChunkA), ((1, -1), ⟨[("LocC", storedLoc ["exit:q+0,r+1"])]⟩)]

/-- The claim C1 scenario run: chunk B at (1,0) is generated on arrival from
(1,-1) (arrival direction "q+0,r+1"), while A at (0,0) already holds an exit
edge toward it. -/
def c1Run : Except String (Chunk × Store) :=
  getOrCreate c1Store 1 0 (some "q+0,r+1") rngHalf ⟨0, 0⟩ none none

/-- Claim C1 (evaluation at the failing input): A at (0,0) has an exit edge
in direction "q+1,r+0" toward (1,0); B at (1,0) is then generated (arriving
from (1,-1)), yet B contains zero locations with an exit edge back at A —
neither the direction value "q-1,r+0" nor the code's flipped string
"q-1,r-0" — because `_apply_neighbor_backlinks` searches A for the token
"exit:q+1,r-0", which A does not hold. A itself stays unchanged in the
store. -/
theorem c1_neighbor_generated_without_backlink :
    countLocsWithToken c1ChunkA "exit:q+1,r+0" = 1 ∧
    c1Run.toOption.map (fun rc => rc.1.locations.length) = some 3 ∧
    c1Run.toOption.map (fun rc => countLocsWithToken rc.1 "exit:q-1,r+0") = some 0 ∧
    c1Run.toOption.map (fun rc => countLocsWithToken rc.1 "exit:q-1,r-0") = some 0 ∧
    c1Run.toOption.map (fun rc => storeGet rc.2 0 0) = some (some c1ChunkA) ∧
    c1Run.toOption.map (fun rc => storeGet rc.2 1 0) =
      c1Run.toOption.map (fun rc => some rc.1) := by
  decide

/-- Chunk A of the claim C2 scenario: stored at (0,0), one location holding
the exit edge toward (1,-1). -/
def c2ChunkA : Chunk := ⟨[("LocA", storedLoc ["exit:q+1,r-1"])]⟩

/-- The claim C2 scenario run: chunk B at (1,-1) is generated on arrival
from A through A's exit edge (arrival direction "q+1,r-1"). -/
def c2Run : Except String (Chunk × Store) :=
  getOrCreate [((0, 0), c2ChunkA)] 1 (-1) (some "q+1,r-1") rngHalf ⟨0, 0⟩ none none

/-- Claim C2 (evaluation at the failing input): generating B at (1,-1) with
arrival direction "q+1,r-1" first gives the entry location the backlink
"exit:q-1,r+1", and neighbor backlink resolution then gives a second location
the same direction token (it deliberately picks a location that does not yet
hold it), so two locations of the persisted chunk claim direction
"q-1,r+1". -/
theorem c2_two_locations_claim_same_direction :
    countLocsWithToken c2ChunkA "exit:q+1,r-1" = 1 ∧
    c2Run.toOption.map (fun rc => countLocsWithToken rc.1 "exit:q-1,r+1") = some 2 ∧
    c2Run.toOption.map (fun rc => storeGet rc.2 1 (-1)) =
      c2Run.toOption.map (fun rc => some rc.1) := by
  decide

/-- Looking up a coordinate right after inserting it returns the inserted
chunk, provided the coordinate was absent before. -/
theorem storeGet_storePut (store : Store) (q r : Int) (c : Chunk)
    (h : storeGet store q r = none) :
    storeGet (storePut store q r c) q r = some c := by
  induction store with
  | nil => simp [storePut, storeGet]
  | cons p rest ih =>
    obtain ⟨qr, ch⟩ := p
    rw [storeGet] at h
    show storeGet ((qr, ch) :: storePut rest q r c) q r = some c
    rw [storeGet]
    split at h
    · simp at h
    · next hne => rw [if_neg hne]; exact ih h

/-- Claim C3: `get_or_create_chunk_data` is idempotent. A stored coordinate
is returned unchanged with no store write; a missing coordinate, once its
generation succeeds, is persisted with exactly one store write (the returned
store is the old store plus the single inserted row), and every later call
for it — with any arguments, random source or collaborator outcome — returns
exactly the persisted chunk, leaving the store unchanged. -/
theorem c3_get_or_create_idempotent (store : Store) (q r : Int)
    (fd fd' : Option String) (g g' : Rng) (s s' : RState)
    (an an' : Option (List (String × NameDetails)))
    (ad ad' : Option (List (String × DescLoc))) :
    (∀ ch, storeGet store q r = some ch →
      getOrCreate store q r fd g s an ad = .ok (ch, store)) ∧
    (storeGet store q r = none →
      ∀ ch st2, getOrCreate store q r fd g s an ad = .ok (ch, st2) →
        st2 = storePut store q r ch ∧
        getOrCreate st2 q r fd' g' s' an' ad' = .ok (ch, st2)) := by
  constructor
  · intro ch h
    unfold getOrCreate
    rw [h]
  · intro hmiss ch st2 hres
    unfold getOrCreate at hres
    rw [hmiss] at hres
    split at hres
    · next c heq => exact absurd heq (by simp)
    · simp only [] at hres
      split at hres
      · simp at hres
      · injection hres with h'
        injection h' with hch hst
        subst hch
        subst hst
        refine ⟨rfl, ?_⟩
        unfold getOrCreate
        rw [storeGet_storePut store q r _ hmiss]

/-- Witness for claim C3 at concrete inputs: the stored chunk at (0,0) is
returned unchanged, and a fresh generation at (5,5) is persisted once and
then replayed by a later call with different arguments. -/
theorem c3_witness :
    (getOrCreate [((0, 0), c1ChunkA)] 0 0 none rngHalf ⟨0, 0⟩ none none =
      .ok (c1ChunkA, [((0, 0), c1ChunkA)])) ∧
    (match getOrCreate [] 5 5 (some "q+1,r+0") rngHalf ⟨0, 0⟩ none none with
     | .ok cs => cs.2 = storePut [] 5 5 cs.1 ∧
         getOrCreate cs.2 5 5 none rngHalf ⟨1, 1⟩ none none = .ok (cs.1, cs.2)
     | .error _ => False) := by
  constructor
  · exact (c3_get_or_create_idempotent [((0, 0), c1ChunkA)] 0 0 none none
      rngHalf rngHalf ⟨0, 0⟩ ⟨0, 0⟩ none none none none).1 c1ChunkA rfl
  · have hok : (getOrCreate [] 5 5 (some "q+1,r+0") rngHalf ⟨0, 0⟩
        none none).toOption.isSome = true := by decide
    split
    · next cs heq =>
      exact (c3_get_or_create_idempotent [] 5 5 (some "q+1,r+0") none
        rngHalf rngHalf ⟨0, 0⟩ ⟨1, 1⟩ none none none none).2 rfl cs.1 cs.2
        (by rw [heq])
    · next e heq =>
      rw [heq] at hok
      simp [Except.toOption] at hok

/-- Claim C10: when the requested chunk already exists, `from_dir` has no
effect: the stored chunk is returned unchanged with no store write, for every
`from_dir` value; and whenever that chunk holds no location with the matching
backlink token, the movement logic's arrival search falls back to the chunk's
first location. -/
theorem c10_from_dir_ignored_on_existing_chunk (store : Store) (q r : Int)
    (fd : String) (ch : Chunk) (g : Rng) (s : RState)
    (an : Option (List (String × NameDetails)))
    (ad : Option (List (String × DescLoc)))
    (h : storeGet store q r = some ch) :
    getOrCreate store q r (some fd) g s an ad = .ok (ch, store) ∧
    ((∀ p ∈ ch.locations, ("exit:" ++ flipDirection fd) ∉ p.2.connections) →
      arrivalLocation ch fd = ch.locations.head?.map (·.1)) := by
  constructor
  · unfold getOrCreate
    rw [h]
  · intro hno
    simp only [arrivalLocation]
    have hf : ch.locations.find?
        (fun p => ("exit:" ++ flipDirection fd) ∈ p.2.connections) = none := by
      rw [List.find?_eq_none]
      intro p hp
      simpa using hno p hp
    rw [hf]

/-- Witness for claim C10 at concrete inputs: the stored chunk at (3,3) is
returned unchanged although `from_dir` is given and the chunk holds no
matching backlink; the arrival search falls back to the first location. -/
theorem c10_witness :
    getOrCreate [((3, 3), c1ChunkA)] 3 3 (some "q+1,r+0") rngHalf ⟨0, 0⟩
        none none = .ok (c1ChunkA, [((3, 3), c1ChunkA)]) ∧
    arrivalLocation c1ChunkA "q+1,r+0" = some "LocA" := by
  have h := c10_from_dir_ignored_on_existing_chunk [((3, 3), c1ChunkA)] 3 3
    "q+1,r+0" c1ChunkA rngHalf ⟨0, 0⟩ none none rfl
  refine ⟨h.1, ?_⟩
  rw [h.2 (by decide)]
  rfl

/-- Random source of the claim C9 scenario: the first float is 0 (one secret
roll succeeds), the remaining secret rolls fail, all later floats are 0 (one
frontier exit from the probability-1.0 draw); every choice index is 0. -/
def rngC9 : Rng :=
  ⟨fun n => if n = 0 then 0 else if n < 10 then 1/2 else 0, fun _ => 0⟩

/-- Naming-collaborator outcome of the claim C9 scenario: valid JSON covering
only two of the four locations (a partial yet well-formed response). -/
def c9NamesResp : List (String × NameDetails) :=
  [("LocationA",
    { newName := "Riverside"
      backstory := "An old river town."
      currentState := "Quiet now."
      notableFeatures := ["the bridge"] }),
   ("Secret1",
    { newName := "VeiledHollow"
      backstory := "A hollow veiled in mist."
      currentState := "Silent."
      notableFeatures := ["the mist"] })]

/-- Description-collaborator outcome of the claim C9 scenario: valid JSON for
the two surviving (renamed) locations, every optional field missing. -/
def c9DescResp : List (String × DescLoc) :=
  [("Riverside", {}), ("VeiledHollow", {})]

/-- The claim C9 scenario run: chunk (2,0) generated on an empty store with
arrival direction "q+1,r+0" and the successful (but partial) collaborator
outcomes above. -/
def c9Run : Except String (Chunk × Store) :=
  getOrCreate [] 2 0 (some "q+1,r+0") rngC9 ⟨0, 0⟩ (some c9NamesResp)
    (some c9DescResp)

/-- The same generation with both collaborators failing: the persisted
topology is the builder's, showing the builder produced four locations. -/
def c9FailRun : Except String (Chunk × Store) :=
  getOrCreate [] 2 0 (some "q+1,r+0") rngC9 ⟨0, 0⟩ none none

/-- Claim C9 (counterexample): the builder produced four locations (visible
in the collaborator-failure run), but under the successful-yet-partial naming
outcome the persisted chunk keeps only the two renamed locations — the
location set is not preserved — and the renamed secret location is persisted
with `visible = true`, because visibility is recomputed from the "Secret"
name prefix after renaming. -/
theorem c9_counterexample :
    c9FailRun.toOption.map (fun rc => rc.1.names) =
      some ["LocationA", "LocationB", "LocationC", "Secret1"] ∧
    c9Run.toOption.map (fun rc => rc.1.names) =
      some ["Riverside", "VeiledHollow"] ∧
    c9Run.toOption.map
        (fun rc => (alookup rc.1.locations "VeiledHollow").map (·.visible)) =
      some (some true) ∧
    c9Run.toOption.map (fun rc => storeGet rc.2 2 0) =
      c9Run.toOption.map (fun rc => some rc.1) := by
  decide

/-- Claim C9 amended: when the content collaborators fail (raise), the
persisted chunk keeps the builder's location names and each location's exact
connections list; "Secret"-prefixed locations get `visible = false` and every
location gets deterministic placeholder text; and whether generation
completes at all never depends on the collaborator outcome. -/
theorem c9_amended_failure_preserves_topology (c : Chunk) (store : Store)
    (q r : Int) (fd : Option String) (g : Rng) (s : RState)
    (an : Option (List (String × NameDetails)))
    (ad : Option (List (String × DescLoc))) (e : String) :
    (generateAiDescriptions (generateNamesAndStories c none) none).names =
      c.names ∧
    (generateAiDescriptions (generateNamesAndStories c none) none).locations.map
        (fun p => (p.1, p.2.connections)) =
      c.locations.map (fun p => (p.1, p.2.connections)) ∧
    (∀ p ∈ (generateAiDescriptions (generateNamesAndStories c none) none).locations,
      p.2.visible = ¬ pyStartsWith p.1 "Secret" ∧
      p.2.description = "A default location named " ++ p.1) ∧
    (getOrCreate store q r fd g s an ad = .error e ↔
      getOrCreate store q r fd g s none none = .error e) := by
  refine ⟨?_, ?_, ?_, ?_⟩
  · simp [generateNamesAndStories, generateAiDescriptions, Chunk.names,
      List.map_map]
  · simp [generateNamesAndStories, generateAiDescriptions, List.map_map]
  · intro p hp
    simp only [generateNamesAndStories, generateAiDescriptions] at hp
    obtain ⟨p0, hp0, rfl⟩ := List.mem_map.mp hp
    constructor
    · simp
    · rfl
  · unfold getOrCreate
    split
    · simp
    · simp only []
      split <;> simp

/-- Witness helper of claim C9: the enriched form of the single location of
`c2ChunkA` under collaborator failure. -/
def c9WitnessLoc : Location :=
  { connections := ["exit:q+1,r-1"]
    visible := true
    description := "A default location named LocA"
    history := []
    sites := [] }

/-- Witness for claim C9 (amended) at concrete inputs. -/
theorem c9_amended_witness :
    (generateAiDescriptions (generateNamesAndStories c2ChunkA none) none).names =
      c2ChunkA.names ∧
    (generateAiDescriptions (generateNamesAndStories c2ChunkA none) none).locations.map
        (fun p => (p.1, p.2.connections)) =
      c2ChunkA.locations.map (fun p => (p.1, p.2.connections)) ∧
    (("LocA", c9WitnessLoc).2.visible = ¬ pyStartsWith ("LocA", c9WitnessLoc).1 "Secret" ∧
      ("LocA", c9WitnessLoc).2.description =
        "A default location named " ++ ("LocA", c9WitnessLoc).1) ∧
    (getOrCreate [] 7 7 none rngHalf ⟨0, 0⟩ none none = .error "KeyError" ↔
      getOrCreate [] 7 7 none rngHalf ⟨0, 0⟩ none none = .error "KeyError") := by
  have h := c9_amended_failure_preserves_topology c2ChunkA [] 7 7 none rngHalf
    ⟨0, 0⟩ none none "KeyError"
  exact ⟨h.1, h.2.1, h.2.2.1 ("LocA", c9WitnessLoc) (by decide), h.2.2.2⟩

/-- The chunk of the claim C6 counterexample: two exit edges already
assigned, so the probability sequence for 2 connected edges applies. -/
def c6Chunk : Chunk :=
  ⟨[("LocationA", storedLoc ["exit:q+1,r+0", "exit:q+1,r-1"]),
    ("LocationB", storedLoc []),
    ("LocationC", storedLoc [])]⟩

/-- Random source of the claim C6 counterexample: the first draw fails
against probability 0.8 (float 0), the second succeeds against probability
0.6 (float 1/2 ≥ 0.4), later draws fail. -/
def rngC6 : Rng := ⟨fun n => if n = 1 then 1/2 else 0, fun _ => 0⟩

/-- Claim C6 (counterexample): the first draw of the sequence fails, yet
processing continues — the second draw succeeds and an exit edge is still
assigned, so the chunk ends with three exit directions instead of two. -/
theorem c6_counterexample :
    rngC6.floats 0 < 1 - (4/5 : ℚ) ∧
    (addAdditionalExits rngC6 [] 0 0 c6Chunk ⟨0, 0⟩).toOption.map
        (fun cs => (usedEdges cs.1).length) = some 3 ∧
    (addAdditionalExits rngC6 [] 0 0 c6Chunk ⟨0, 0⟩).toOption.map
        (fun cs => countLocsWithToken cs.1 "exit:q+0,r-1") = some 1 := by
  decide

/-- Total number of exit-edge tokens across a chunk's locations. -/
def exitTokenCount (c : Chunk) : Nat :=
  (c.locations.map fun p =>
    (p.2.connections.filter fun t => pyStartsWith t "exit:").length).sum

/-- Success count of the frontier draw sequence: one draw per probability,
strictly in order, while frontier directions remain; a draw succeeds when the
drawn float is at least `1 - p`; each success consumes one frontier direction
and two choice indices, and a failure moves on to the next probability. -/
def numSuccesses (g : Rng) : List ℚ → Nat → RState → Nat
  | [], _, _ => 0
  | p :: rest, nd, s =>
    if nd = 0 then 0
    else if 1 - p ≤ g.floats s.fi then
      1 + numSuccesses g rest (nd - 1) ⟨s.fi + 1, s.ii + 1 + 1⟩
    else numSuccesses g rest nd ⟨s.fi + 1, s.ii⟩

/-- When no location holds the exit token for a direction, every location is
available for it. -/
theorem availableLocs_of_fresh (c : Chunk) (d : String)
    (h : ∀ p ∈ c.locations, ("exit:" ++ d) ∉ p.2.connections) :
    availableLocs c d = c.names := by
  unfold availableLocs Chunk.names
  congr 1
  rw [List.filter_eq_self]
  intro p hp
  simpa using h p hp

/-- The names of a chunk are unchanged by appending a connection token. -/
theorem names_appendConn (c : Chunk) (ln tok : String) :
    (c.appendConn ln tok).names = c.names := by
  unfold Chunk.appendConn Chunk.names
  rw [List.map_map]
  congr 1
  funext p
  by_cases h : p.1 = ln <;> simp [h]

/-- An appended exit token raises the exit-token count by exactly one when
the target name occurs exactly once. -/
theorem exitTokenCount_appendConn (c : Chunk) (ln tok : String)
    (hnd : c.names.Nodup) (hmem : ln ∈ c.names)
    (htok : pyStartsWith tok "exit:" = true) :
    exitTokenCount (c.appendConn ln tok) = exitTokenCount c + 1 := by
  obtain ⟨locs⟩ := c
  simp only [Chunk.names] at hnd hmem
  unfold exitTokenCount Chunk.appendConn
  simp only []
  revert hnd hmem
  induction locs with
  | nil =>
    intro _ hmem
    simp at hmem
  | cons p rest ih =>
    intro hnd hmem
    simp only [List.map_cons, List.nodup_cons, List.mem_cons] at hnd hmem
    by_cases hp : p.1 = ln
    · have hrest : rest.map (fun q =>
          if q.1 = ln then (q.1, { q.2 with connections := q.2.connections ++ [tok] })
          else q) = rest := by
        have hid : ∀ q ∈ rest, (fun q =>
            if q.1 = ln then (q.1, { q.2 with connections := q.2.connections ++ [tok] })
            else q) q = id q := by
          intro q hq
          have hne : ¬ (q.1 = ln) := by
            intro h
            exact hnd.1 (hp ▸ h ▸ List.mem_map_of_mem (·.1) hq)
          simp [hne]
        rw [List.map_congr_left hid, List.map_id]
      simp only [List.map_cons, List.sum_cons, hp, if_pos rfl, hrest]
      simp [List.filter_append, htok]
      omega
    · have hmem' : ln ∈ rest.map (·.1) := by
        rcases hmem with h | h
        · exact absurd h.symm hp
        · exact h
      simp only [List.map_cons, List.sum_cons, if_neg hp]
      rw [ih hnd.2 hmem']
      omega

/-- Appending a different token never introduces the token `t`. -/
theorem fresh_appendConn (c : Chunk) (ln tok t : String)
    (h : ∀ p ∈ c.locations, t ∉ p.2.connections) (hne : t ≠ tok) :
    ∀ p ∈ (c.appendConn ln tok).locations, t ∉ p.2.connections := by
  intro p hp
  unfold Chunk.appendConn at hp
  obtain ⟨p0, hp0, rfl⟩ := List.mem_map.mp hp
  by_cases hq : p0.1 = ln
  · simp only [hq, if_pos rfl]
    simp [List.mem_append, h p0 hp0, hne]
  · simp only [if_neg hq]
    exact h p0 hp0

/-- A list is a Boolean prefix of itself followed by anything. -/
theorem isPrefixOf_self_append : ∀ (l m : List Char), l.isPrefixOf (l ++ m) = true := by
  intro l m
  induction l with
  | nil => simp [List.isPrefixOf]
  | cons c cs ih => simp [List.isPrefixOf, ih]

/-- The direction-exit token always carries the exit marker. -/
theorem pyStartsWith_exit_append (d : String) :
    pyStartsWith ("exit:" ++ d) "exit:" = true := by
  unfold pyStartsWith
  rw [String.data_append]
  exact isPrefixOf_self_append _ _

/-- Exit tokens of distinct directions are distinct. -/
theorem exit_append_inj (a b : String) (h : "exit:" ++ a = "exit:" ++ b) :
    a = b := by
  have hd := congrArg String.data h
  rw [String.data_append, String.data_append] at hd
  exact String.ext (List.append_cancel_left hd)

/-- `random.choice` on a nonempty list returns a member. -/
theorem pyChoice_of_ne_nil {α : Type} (g : Rng) (s : RState) (xs : List α)
    (h : xs ≠ []) : ∃ x, (pyChoice g s xs).1 = some x ∧ x ∈ xs := by
  unfold pyChoice
  have hlen : 0 < xs.length := List.length_pos.mpr h
  have hlt : g.ints s.ii % xs.length < xs.length := Nat.mod_lt _ hlen
  simp only []
  rw [List.get?_eq_get hlt]
  exact ⟨_, rfl, List.get_mem xs _ _⟩

/-- The frontier loop adds exactly one exit token per successful draw. -/
theorem exitLoop_count (g : Rng) : ∀ (probs : List ℚ) (dirs : List String)
    (c : Chunk) (s : RState), dirs.Nodup →
    (∀ d ∈ dirs, ∀ p ∈ c.locations, ("exit:" ++ d) ∉ p.2.connections) →
    c.locations ≠ [] → c.names.Nodup →
    exitTokenCount (exitLoop g probs dirs c s).1 =
      exitTokenCount c + numSuccesses g probs dirs.length s := by
  intro probs
  induction probs with
  | nil =>
    intro dirs c s _ _ _ _
    simp [exitLoop, numSuccesses]
  | cons p rest ih =>
    intro dirs c s hnd hfresh hne hnames
    by_cases hd : dirs = []
    · subst hd
      simp [exitLoop, numSuccesses]
    · have hnn : c.names ≠ [] := by
        simpa [Chunk.names, List.map_eq_nil_iff] using hne
      have hlen0 : dirs.length ≠ 0 := by simpa [List.length_eq_zero] using hd
      simp only [exitLoop, numSuccesses, pyRandom]
      rw [if_neg hd, if_neg hlen0]
      by_cases hu : 1 - p ≤ g.floats s.fi
      · rw [if_pos hu, if_pos hu]
        obtain ⟨chosen, hch, hchmem⟩ :=
          pyChoice_of_ne_nil g { s with fi := s.fi + 1 } dirs hd
        rw [hch]
        simp only []
        rw [availableLocs_of_fresh c chosen (hfresh chosen hchmem)]
        rw [if_pos hnn]
        obtain ⟨ln, hln, hlnmem⟩ := pyChoice_of_ne_nil g
          (pyChoice g { s with fi := s.fi + 1 } dirs).2 c.names hnn
        rw [hln]
        simp only [pyChoice]
        have hfresh' : ∀ d ∈ dirs.erase chosen,
            ∀ pp ∈ (c.appendConn ln ("exit:" ++ chosen)).locations,
              ("exit:" ++ d) ∉ pp.2.connections := by
          intro d hdm
          have hdm' := (List.Nodup.mem_erase_iff hnd).mp hdm
          exact fresh_appendConn c ln ("exit:" ++ chosen) ("exit:" ++ d)
            (hfresh d hdm'.2)
            (fun hh => hdm'.1 (exit_append_inj d chosen hh))
        have hne' : (c.appendConn ln ("exit:" ++ chosen)).locations ≠ [] := by
          simp [Chunk.appendConn, List.map_eq_nil_iff]
          exact hne
        have hnames' : (c.appendConn ln ("exit:" ++ chosen)).names.Nodup := by
          rw [names_appendConn]
          exact hnames
        rw [ih (dirs.erase chosen) _ _ (hnd.erase chosen) hfresh' hne' hnames']
        rw [exitTokenCount_appendConn c ln ("exit:" ++ chosen) hnames hlnmem
          (pyStartsWith_exit_append chosen)]
        rw [List.length_erase_of_mem hchmem]
        omega
      · rw [if_neg hu, if_neg hu]
        exact ih dirs c { s with fi := s.fi + 1 } hnd hfresh hne hnames

/-- Claim C6 amended: the probabilities for the current exit count are tried
strictly in order with a single draw per probability; on a failed draw the
sequence continues with the next probability (it does not stop); processing
stops once no frontier directions remain or the sequence is exhausted; and
every successful draw consumes exactly one frontier direction and adds
exactly one exit token on one location, so the number of exit tokens added
equals the number of successful draws. -/
theorem c6_amended_frontier_sequencing (g : Rng) (probs : List ℚ)
    (dirs : List String) (c : Chunk) (s : RState)
    (hnd : dirs.Nodup)
    (hfresh : ∀ d ∈ dirs, ∀ p ∈ c.locations, ("exit:" ++ d) ∉ p.2.connections)
    (hne : c.locations ≠ []) (hnames : c.names.Nodup) :
    exitTokenCount (exitLoop g probs dirs c s).1 =
      exitTokenCount c + numSuccesses g probs dirs.length s ∧
    (∀ p rest, probs = p :: rest → dirs ≠ [] → g.floats s.fi < 1 - p →
      exitLoop g probs dirs c s = exitLoop g rest dirs c ⟨s.fi + 1, s.ii⟩) ∧
    (dirs = [] → exitLoop g probs dirs c s = (c, s)) := by
  refine ⟨exitLoop_count g probs dirs c s hnd hfresh hne hnames, ?_, ?_⟩
  · intro p rest hp hdne hu
    subst hp
    simp only [exitLoop, pyRandom]
    rw [if_neg hdne, if_neg (not_le.mpr hu)]
  · intro hd
    subst hd
    cases probs <;> simp [exitLoop]

/-- Witness for claim C6 (amended) at concrete inputs: the counting equation
for one frontier direction and two probabilities, the explicit
continue-after-failure step for the failing 0.8 draw, and the stop on an
empty frontier. -/
theorem c6_amended_witness :
    exitTokenCount (exitLoop rngC6 [4/5, 3/5] ["q+0,r-1"] c6Chunk ⟨0, 0⟩).1 =
      exitTokenCount c6Chunk + numSuccesses rngC6 [4/5, 3/5] 1 ⟨0, 0⟩ ∧
    exitLoop rngC6 [4/5, 3/5] ["q+0,r-1"] c6Chunk ⟨0, 0⟩ =
      exitLoop rngC6 [3/5] ["q+0,r-1"] c6Chunk ⟨1, 0⟩ ∧
    exitLoop rngC6 [4/5] [] c6Chunk ⟨0, 0⟩ = (c6Chunk, ⟨0, 0⟩) := by
  have h1 := c6_amended_frontier_sequencing rngC6 [4/5, 3/5] ["q+0,r-1"]
    c6Chunk ⟨0, 0⟩ (by decide) (by decide) (by decide) (by decide)
  have h2 := c6_amended_frontier_sequencing rngC6 [4/5] [] c6Chunk ⟨0, 0⟩
    (by decide) (by decide) (by decide) (by decide)
  exact ⟨h1.1, h1.2.1 (4/5) [3/5] rfl (by decide) (by decide), h2.2.2 rfl⟩

/-! ## Connectivity repair (claim C5) -/

/-- A local edge of a chunk: location `a` lists location name `b` among its
connections (edge tokens that are location names are exactly the local
edges). -/
def localEdge (c : Chunk) (a b : String) : Prop :=
  ∃ loc, alookup c.locations a = some loc ∧ b ∈ loc.connections ∧ b ∈ c.names

/-- Number of directed local edges of a chunk (connection tokens that are
location names, counted per location). -/
def localEdgeCount (c : Chunk) : Nat :=
  (c.locations.map fun p =>
    (p.2.connections.filter fun t => t ∈ c.names).length).sum

/-- The connections list of the named location (empty when absent). -/
def connsAt (c : Chunk) (ln : String) : List String :=
  ((alookup c.locations ln).map Location.connections).getD []

theorem mem_setAdd (l : List String) (x a : String) :
    a ∈ setAdd l x ↔ a ∈ l ∨ a = x := by
  unfold setAdd
  by_cases h : x ∈ l
  · rw [if_pos h]
    constructor
    · exact Or.inl
    · rintro (ha | rfl) <;> [exact ha; exact h]
  · rw [if_neg h]
    simp

theorem nodup_setAdd (l : List String) (x : String) (h : l.Nodup) :
    (setAdd l x).Nodup := by
  unfold setAdd
  by_cases hx : x ∈ l
  · rwa [if_pos hx]
  · rw [if_neg hx]
    refine List.Nodup.append h (List.nodup_singleton x) ?_
    intro a ha hax
    rw [List.mem_singleton] at hax
    exact hx (hax ▸ ha)

theorem mem_dedupAux (l : List String) :
    ∀ (acc : List String) (a : String),
      a ∈ List.foldl setAdd acc l ↔ a ∈ acc ∨ a ∈ l := by
  induction l with
  | nil => simp
  | cons x t ih =>
    intro acc a
    rw [List.foldl_cons, ih, mem_setAdd]
    simp only [List.mem_cons]
    tauto

theorem mem_dedupKeepFirst (l : List String) (a : String) :
    a ∈ dedupKeepFirst l ↔ a ∈ l := by
  unfold dedupKeepFirst
  rw [mem_dedupAux]
  simp

theorem nodup_dedupKeepFirst (l : List String) : (dedupKeepFirst l).Nodup := by
  unfold dedupKeepFirst
  have h : ∀ (acc : List String), acc.Nodup → (List.foldl setAdd acc l).Nodup := by
    induction l with
    | nil => intro acc h; simpa using h
    | cons x t ih =>
      intro acc h
      rw [List.foldl_cons]
      exact ih _ (nodup_setAdd acc x h)
  exact h [] (by simp)

theorem mem_insertSorted (x a : String) (l : List String) :
    a ∈ insertSorted x l ↔ a = x ∨ a ∈ l := by
  induction l with
  | nil => simp [insertSorted]
  | cons y t ih =>
    unfold insertSorted
    by_cases h : strLt x.data y.data
    · rw [if_pos h]
      simp
    · rw [if_neg h]
      simp only [List.mem_cons, ih]
      tauto

theorem mem_pySorted (l : List String) (a : String) :
    a ∈ pySorted l ↔ a ∈ l := by
  induction l with
  | nil => simp [pySorted]
  | cons y t ih =>
    unfold pySorted at ih ⊢
    rw [List.foldr_cons, mem_insertSorted, ih]
    simp

theorem nodup_insertSorted (x : String) (l : List String) (hx : x ∉ l)
    (h : l.Nodup) : (insertSorted x l).Nodup := by
  induction l with
  | nil => simp [insertSorted]
  | cons y t ih =>
    unfold insertSorted
    rw [List.mem_cons, not_or] at hx
    rw [List.nodup_cons] at h
    by_cases hlt : strLt x.data y.data
    · rw [if_pos hlt]
      refine List.nodup_cons.mpr ⟨?_, List.nodup_cons.mpr h⟩
      simp only [List.mem_cons, not_or]
      exact ⟨hx.1, hx.2⟩
    · rw [if_neg hlt]
      refine List.nodup_cons.mpr ⟨?_, ih hx.2 h.2⟩
      rw [mem_insertSorted]
      rintro (rfl | hy)
      · exact hx.1 rfl
      · exact h.1 hy

theorem nodup_pySorted (l : List String) (h : l.Nodup) : (pySorted l).Nodup := by
  induction l with
  | nil => simp [pySorted]
  | cons y t ih =>
    rw [List.nodup_cons] at h
    show (insertSorted y (pySorted t)).Nodup
    refine nodup_insertSorted y _ ?_ (ih h.2)
    rw [mem_pySorted]
    exact h.1

theorem alookup_of_not_mem {α : Type} (l : List (String × α)) (m : String)
    (h : m ∉ l.map (·.1)) : alookup l m = none := by
  induction l with
  | nil => rfl
  | cons p rest ih =>
    simp only [List.map_cons, List.mem_cons, not_or] at h
    rw [alookup, if_neg (fun he => h.1 he.symm)]
    exact ih h.2

theorem alookup_self_of_nodup {α : Type} (l : List (String × α))
    (hnd : (l.map (·.1)).Nodup) : ∀ p ∈ l, alookup l p.1 = some p.2 := by
  induction l with
  | nil => simp
  | cons q rest ih =>
    simp only [List.map_cons, List.nodup_cons] at hnd
    intro p hp
    rcases List.mem_cons.mp hp with rfl | hp'
    · rw [alookup, if_pos rfl]
    · rw [alookup]
      have hne : q.1 ≠ p.1 := by
        intro he
        exact hnd.1 (he ▸ List.mem_map_of_mem (·.1) hp')
      rw [if_neg hne]
      exact ih hnd.2 p hp'

theorem alookup_aset_ne {α : Type} (l : List (String × α)) (k m : String)
    (v : α) (h : m ≠ k) : alookup (aset l k v) m = alookup l m := by
  induction l with
  | nil => rfl
  | cons p rest ih =>
    rw [aset]
    by_cases hk : p.1 = k
    · rw [if_pos hk, alookup, alookup, hk]
      rw [if_neg (fun he => h he.symm), if_neg (fun he => h he.symm)]
    · rw [if_neg hk, alookup, alookup]
      by_cases hm : p.1 = m
      · rw [if_pos hm, if_pos hm]
      · rw [if_neg hm, if_neg hm, ih]

theorem alookup_aset_self {α : Type} (l : List (String × α)) (k : String)
    (v : α) (h : (alookup l k).isSome) : alookup (aset l k v) k = some v := by
  induction l with
  | nil => simp [alookup] at h
  | cons p rest ih =>
    rw [aset]
    by_cases hk : p.1 = k
    · rw [if_pos hk, alookup, if_pos hk]
    · rw [if_neg hk, alookup, if_neg hk]
      rw [alookup, if_neg hk] at h
      exact ih h

theorem alookup_aset_isSome {α : Type} (l : List (String × α)) (k m : String)
    (v : α) : (alookup (aset l k v) m).isSome = (alookup l m).isSome := by
  induction l with
  | nil => rfl
  | cons p rest ih =>
    rw [aset]
    by_cases hk : p.1 = k
    · rw [if_pos hk, alookup, alookup]
      by_cases hm : p.1 = m
      · rw [if_pos hm, if_pos hm]
        rfl
      · rw [if_neg hm, if_neg hm]
    · rw [if_neg hk, alookup, alookup]
      by_cases hm : p.1 = m
      · rw [if_pos hm, if_pos hm]
      · rw [if_neg hm, if_neg hm, ih]

theorem adjGet_aset_ne (adj : List (String × List String)) (k m : String)
    (v : List String) (h : m ≠ k) : adjGet (aset adj k v) m = adjGet adj m := by
  unfold adjGet
  rw [alookup_aset_ne adj k m v h]

theorem adjGet_adjAdd_ne (adj : List (String × List String)) (k m x : String)
    (h : m ≠ k) : adjGet (adjAdd adj k x) m = adjGet adj m := by
  unfold adjAdd
  exact adjGet_aset_ne adj k m _ h

theorem adjGet_adjAdd_self (adj : List (String × List String)) (k x : String)
    (h : (alookup adj k).isSome) :
    adjGet (adjAdd adj k x) k = setAdd (adjGet adj k) x := by
  unfold adjAdd adjGet
  rw [alookup_aset_self adj k _ h]
  rfl

theorem adjAdd_isSome (adj : List (String × List String)) (k m x : String) :
    (alookup (adjAdd adj k x) m).isSome = (alookup adj m).isSome := by
  unfold adjAdd
  exact alookup_aset_isSome adj k m _

/-- The gathered adjacency of a chunk with no local tokens is empty at every
location. -/
theorem gatherLocal_of_no_names (names conns : List String)
    (h : ∀ t ∈ conns, t ∉ names) : gatherLocal names conns = [] := by
  unfold gatherLocal
  induction conns with
  | nil => rfl
  | cons t rest ih =>
    rw [List.foldl_cons, if_neg (h t (List.mem_cons_self t rest))]
    exact ih (fun u hu => h u (List.mem_cons_of_mem t hu))

/-- The gathered adjacency dict of a chunk with no local tokens maps every
location name to the empty set. -/
theorem gatherAdj_of_no_names (c : Chunk)
    (h : ∀ p ∈ c.locations, ∀ t ∈ p.2.connections, t ∉ c.names) :
    gatherAdj c = c.locations.map fun p => (p.1, ([] : List String)) := by
  unfold gatherAdj
  apply List.map_congr_left
  intro p hp
  rw [gatherLocal_of_no_names c.names p.2.connections (h p hp)]

theorem alookup_map_nil (l : List (String × Location)) (m : String) :
    adjGet (l.map fun p => (p.1, ([] : List String))) m = [] := by
  induction l with
  | nil => rfl
  | cons p rest ih =>
    unfold adjGet at ih ⊢
    rw [List.map_cons, alookup]
    by_cases hm : p.1 = m
    · rw [if_pos hm]
      rfl
    · rw [if_neg hm]
      exact ih

theorem alookup_map_nil_isSome (l : List (String × Location)) (m : String) :
    (alookup (l.map fun p => (p.1, ([] : List String))) m).isSome =
      (m ∈ l.map (·.1) : Bool) := by
  induction l with
  | nil => simp [alookup]
  | cons p rest ih =>
    rw [List.map_cons, alookup]
    by_cases hm : p.1 = m
    · rw [if_pos hm]
      simp [hm]
    · rw [if_neg hm, ih]
      congr 1
      simp only [List.map_cons, List.mem_cons, eq_iff_iff]
      constructor
      · exact Or.inr
      · rintro (h | h)
        · exact absurd h.symm hm
        · exact h

/-- The BFS loop with an empty queue returns the visited set. -/
theorem bfsAux_nil_queue (adj : List (String × List String)) (fuel : Nat)
    (visited : List String) : bfsAux adj fuel [] visited = visited := by
  cases fuel <;> rfl

/-- BFS over an all-empty adjacency visits only the start node. -/
theorem bfs_empty_adj (adj : List (String × List String)) (start : String)
    (n : Nat) (h : ∀ m, adjGet adj m = []) : bfs adj start n = [start] := by
  unfold bfs
  rw [show 2 * n + 1 = (2 * n) + 1 from rfl]
  rw [bfsAux]
  have hstep : bfsStep adj start [] [start] = ([], [start]) := by
    unfold bfsStep
    rw [h start]
    rfl
  rw [hstep]
  exact bfsAux_nil_queue adj (2 * n) [start]

/-- Component computation over an all-empty adjacency yields one singleton
component per location name. -/
theorem computeComponents_empty_adj (adj : List (String × List String))
    (names : List String) (h : ∀ m, adjGet adj m = []) (hnd : names.Nodup) :
    computeComponents adj names = names.map fun n => [n] := by
  unfold computeComponents
  have key : ∀ (l : List String) (acc1 : List (List String))
      (acc2 : List String) (len : Nat), l.Nodup → (∀ n ∈ l, n ∉ acc2) →
      (l.foldl (fun acc ln =>
        if ln ∈ acc.2 then acc
        else
          let comp := bfs adj ln len
          (acc.1 ++ [comp], acc.2 ++ comp.filter (· ∉ acc.2)))
        (acc1, acc2)).1 = acc1 ++ l.map fun n => [n] := by
    intro l
    induction l with
    | nil => intro acc1 acc2 len _ _; simp
    | cons n rest ih =>
      intro acc1 acc2 len hnd2 hout
      rw [List.foldl_cons, if_neg (hout n (List.mem_cons_self n rest))]
      simp only [bfs_empty_adj adj n len h]
      rw [List.nodup_cons] at hnd2
      have hfilter : ([n].filter (· ∉ acc2)) = [n] := by
        simp [hout n (List.mem_cons_self n rest)]
      rw [hfilter, ih (acc1 ++ [[n]]) (acc2 ++ [n]) len hnd2.2 ?_]
      · simp
      · intro m hm
        simp only [List.mem_append, List.mem_singleton, not_or]
        exact ⟨fun hc => hout m (List.mem_cons_of_mem n hm) hc,
          fun hc => hnd2.1 (hc ▸ hm)⟩
  simpa using key names [] [] names.length hnd (by simp)

/-- The merge loop over a nonempty head component followed by singleton
components links the head's representative to each singleton in order. -/
theorem mergeAux_star : ∀ (rest : List String) (t : List String)
    (adj : List (String × List String)) (h : String),
    mergeAux (rest.length + 1) ((h :: t) :: rest.map fun n => [n]) adj =
      rest.foldl (fun a n => adjAdd (adjAdd a h n) n h) adj := by
  intro rest
  induction rest with
  | nil =>
    intro t adj h
    rfl
  | cons n rest' ih =>
    intro t adj h
    show mergeAux (rest'.length + 1 + 1) ((h :: t) :: [n] :: rest'.map _) adj = _
    rw [mergeAux]
    show mergeAux (rest'.length + 1)
      ((h :: (t ++ [n].filter (· ∉ h :: t))) :: rest'.map fun n => [n]) _ = _
    rw [ih]
    rfl

/-- The star fold: starting from an adjacency whose value is empty at each
pending name, it records the hub's neighbors in order and gives each pending
name the hub as its one neighbor; every other entry is untouched. -/
theorem star_fold (hub : String) :
    ∀ (rest : List String) (adj : List (String × List String)),
    (alookup adj hub).isSome → (∀ n ∈ rest, (alookup adj n).isSome) →
    hub ∉ rest → rest.Nodup →
    (∀ n ∈ rest, adjGet adj n = []) →
    (∀ n ∈ rest, n ∉ adjGet adj hub) →
    (adjGet (rest.foldl (fun a n => adjAdd (adjAdd a hub n) n hub) adj) hub =
      adjGet adj hub ++ rest) ∧
    (∀ n ∈ rest,
      adjGet (rest.foldl (fun a n => adjAdd (adjAdd a hub n) n hub) adj) n =
        [hub]) ∧
    (∀ m, m ≠ hub → m ∉ rest →
      adjGet (rest.foldl (fun a n => adjAdd (adjAdd a hub n) n hub) adj) m =
        adjGet adj m) := by
  intro rest
  induction rest with
  | nil =>
    intro adj _ _ _ _ _ _
    refine ⟨by simp, by simp, fun m _ _ => rfl⟩
  | cons n rest' ih =>
    intro adj hhub hsome hnhub hnd hempty hfresh
    rw [List.nodup_cons] at hnd
    rw [List.mem_cons, not_or] at hnhub
    have hne : n ≠ hub := fun he => hnhub.1 he.symm
    -- the two updates for n
    have ha1hub : adjGet (adjAdd adj hub n) hub = adjGet adj hub ++ [n] := by
      rw [adjGet_adjAdd_self adj hub n hhub]
      unfold setAdd
      rw [if_neg (hfresh n (List.mem_cons_self n rest'))]
    have ha1n : adjGet (adjAdd adj hub n) n = [] := by
      rw [adjGet_adjAdd_ne adj hub n n hne]
      exact hempty n (List.mem_cons_self n rest')
    have ha2n : adjGet (adjAdd (adjAdd adj hub n) n hub) n = [hub] := by
      rw [adjGet_adjAdd_self]
      · rw [ha1n]
        rfl
      · rw [adjAdd_isSome]
        exact hsome n (List.mem_cons_self n rest')
    have ha2hub : adjGet (adjAdd (adjAdd adj hub n) n hub) hub =
        adjGet adj hub ++ [n] := by
      rw [adjGet_adjAdd_ne _ n hub hub (fun he => hne he.symm)]
      exact ha1hub
    have ha2other : ∀ m, m ≠ hub → m ≠ n →
        adjGet (adjAdd (adjAdd adj hub n) n hub) m = adjGet adj m := by
      intro m hmh hmn
      rw [adjGet_adjAdd_ne _ n m hub hmn, adjGet_adjAdd_ne _ hub m n hmh]
    set adj2 := adjAdd (adjAdd adj hub n) n hub with hadj2
    have hrec := ih adj2 ?_ ?_ hnhub.2 hnd.2 ?_ ?_
    · rw [List.foldl_cons]
      refine ⟨?_, ?_, ?_⟩
      · rw [← hadj2, hrec.1, ha2hub]
        simp
      · intro m hm
        rcases List.mem_cons.mp hm with rfl | hm'
        · rw [← hadj2, hrec.2.2 m hne (fun hc => hnd.1 hc), ha2n]
        · rw [← hadj2]
          exact hrec.2.1 m hm'
      · intro m hmh hm
        rw [List.mem_cons, not_or] at hm
        rw [← hadj2, hrec.2.2 m hmh hm.2, ha2other m hmh hm.1]
    · rw [hadj2, adjAdd_isSome, adjAdd_isSome]
      exact hhub
    · intro m hm
      rw [hadj2, adjAdd_isSome, adjAdd_isSome]
      exact hsome m (List.mem_cons_of_mem n hm)
    · intro m hm
      rw [hadj2, ha2other m (fun he => hnhub.2 (he ▸ hm)) (fun he => hnd.1 (he ▸ hm))]
      exact hempty m (List.mem_cons_of_mem n hm)
    · intro m hm
      rw [hadj2, ha2hub]
      simp only [List.mem_append, List.mem_singleton, not_or]
      exact ⟨hfresh m (List.mem_cons_of_mem n hm), fun he => hnd.1 (he ▸ hm)⟩

theorem alookup_mem {α : Type} (l : List (String × α)) (m : String) (v : α)
    (h : alookup l m = some v) : (m, v) ∈ l := by
  induction l with
  | nil => simp [alookup] at h
  | cons p rest ih =>
    rw [alookup] at h
    by_cases hm : p.1 = m
    · rw [if_pos hm] at h
      injection h with h2
      have hpv : p = (m, v) := by
        obtain ⟨p1, p2⟩ := p
        simp only at hm h2
        rw [hm, h2]
      rw [← hpv]
      exact List.mem_cons_self p rest
    · rw [if_neg hm] at h
      exact List.mem_cons_of_mem p (ih h)

theorem alookup_isSome_of_mem {α : Type} (l : List (String × α)) (m : String)
    (h : m ∈ l.map (·.1)) : (alookup l m).isSome := by
  induction l with
  | nil => simp at h
  | cons p rest ih =>
    rw [alookup]
    by_cases hm : p.1 = m
    · rw [if_pos hm]
      rfl
    · rw [if_neg hm]
      rw [List.map_cons, List.mem_cons] at h
      rcases h with he | hm2
      · exact absurd he.symm hm
      · exact ih hm2

theorem alookup_map_snd {β : Type} (l : List (String × Location))
    (F : String → Location → β) (m : String) :
    alookup (l.map fun p => (p.1, F p.1 p.2)) m =
      (alookup l m).map (F m) := by
  induction l with
  | nil => rfl
  | cons p rest ih =>
    rw [List.map_cons, alookup, alookup]
    by_cases hm : p.1 = m
    · rw [if_pos hm, if_pos hm, hm]
      rfl
    · rw [if_neg hm, if_neg hm, ih]

/-- The star adjacency built by connectivity repair on a chunk with no local
edges: the hub (last location in dict order) linked to every other name. -/
def adjStar (c : Chunk) (hub : String) (restNames : List String) :
    List (String × List String) :=
  restNames.foldl (fun a n => adjAdd (adjAdd a hub n) n hub)
    (c.locations.map fun p => (p.1, ([] : List String)))

/-- Values of the star adjacency: the hub maps to all remaining names, each
remaining name maps to the hub, everything else is empty. -/
theorem adjStar_get (c : Chunk) (hub : String) (restNames : List String)
    (hnodup : c.names.Nodup) (hrev : c.names.reverse = hub :: restNames) :
    adjGet (adjStar c hub restNames) hub = restNames ∧
    (∀ n ∈ restNames, adjGet (adjStar c hub restNames) n = [hub]) ∧
    (∀ m, m ≠ hub → m ∉ restNames → adjGet (adjStar c hub restNames) m = []) := by
  have hmemrev : ∀ m, m ∈ c.names ↔ m = hub ∨ m ∈ restNames := by
    intro m
    rw [← List.mem_reverse, hrev, List.mem_cons]
  have hrnodup : (hub :: restNames).Nodup := by
    rw [← hrev]
    exact List.nodup_reverse.mpr hnodup
  rw [List.nodup_cons] at hrnodup
  have hsome0 : ∀ m ∈ c.names,
      (alookup (c.locations.map fun p => (p.1, ([] : List String))) m).isSome := by
    intro m hm
    rw [alookup_map_nil_isSome]
    simpa [Chunk.names] using hm
  have h := star_fold hub restNames
    (c.locations.map fun p => (p.1, ([] : List String)))
    (hsome0 hub ((hmemrev hub).mpr (Or.inl rfl)))
    (fun n hn => hsome0 n ((hmemrev n).mpr (Or.inr hn)))
    hrnodup.1 hrnodup.2
    (fun n _ => alookup_map_nil c.locations n)
    (fun n _ => by rw [alookup_map_nil c.locations hub]; simp)
  refine ⟨?_, h.2.1, ?_⟩
  · rw [show adjStar c hub restNames = restNames.foldl
      (fun a n => adjAdd (adjAdd a hub n) n hub)
      (c.locations.map fun p => (p.1, ([] : List String))) from rfl]
    rw [h.1, alookup_map_nil c.locations hub]
    rfl
  · intro m hmh hmr
    rw [show adjStar c hub restNames = restNames.foldl
      (fun a n => adjAdd (adjAdd a hub n) n hub)
      (c.locations.map fun p => (p.1, ([] : List String))) from rfl]
    rw [h.2.2 m hmh hmr]
    exact alookup_map_nil c.locations m

/-- The enriched location after connectivity repair: connections become the
sorted union of the star-adjacency set and the location's exit tokens. -/
def starConns (c : Chunk) (hub : String) (restNames : List String)
    (n : String) (loc : Location) : Location :=
  { loc with connections := pySorted (dedupKeepFirst
      (pySorted (adjGet (adjStar c hub restNames) n) ++
        loc.connections.filter fun t => pyStartsWith t "exit:")) }

/-- On a chunk with no local edges, connectivity repair rewrites every
location's connections to the sorted union of its star-adjacency set and its
exit tokens. -/
theorem connectLocal_star_form (c : Chunk) (hub : String)
    (restNames : List String)
    (hext : ∀ p ∈ c.locations, ∀ t ∈ p.2.connections, t ∉ c.names)
    (hnodup : c.names.Nodup)
    (hrev : c.names.reverse = hub :: restNames) :
    connectLocalLocations c = ⟨c.locations.map fun p =>
      (p.1, starConns c hub restNames p.1 p.2)⟩ := by
  have hlen : c.names.length = restNames.length + 1 := by
    rw [← List.length_reverse, hrev]
    rfl
  unfold connectLocalLocations
  simp only []
  rw [gatherAdj_of_no_names c hext]
  rw [computeComponents_empty_adj _ c.names (alookup_map_nil c.locations) hnodup]
  rw [List.length_map, hlen]
  rw [← List.map_reverse, hrev, List.map_cons]
  rw [mergeAux_star restNames [] _ hub]
  rfl

/-- Claim C5: on every chunk state entering connectivity repair (no
connection token is a location name, the placeholder names are distinct, the
chunk is nonempty, and no location name carries the exit marker), the repair
keeps the location names; the initial local-edge component structure is one
singleton component per location (so there are `names.length` components)
and there are no local edges; afterwards every location is reachable from
every other through local edges (one component covering all locations), the
local-edge relation is symmetric, exactly `initial components - 1`
bidirectional local edges (`2 * (n - 1)` directed entries) were added, and
every location's set of exit tokens is unchanged. -/
theorem c5_connectivity_repair (c : Chunk)
    (hext : ∀ p ∈ c.locations, ∀ t ∈ p.2.connections, t ∉ c.names)
    (hnodup : c.names.Nodup)
    (hne : c.locations ≠ [])
    (hnoexit : ∀ n ∈ c.names, pyStartsWith n "exit:" = false) :
    (connectLocalLocations c).names = c.names ∧
    computeComponents (gatherAdj c) c.names = (c.names.map fun n => [n]) ∧
    localEdgeCount c = 0 ∧
    (∀ a b, a ∈ (connectLocalLocations c).names →
      b ∈ (connectLocalLocations c).names →
      Relation.ReflTransGen (localEdge (connectLocalLocations c)) a b) ∧
    (∀ a b, localEdge (connectLocalLocations c) a b ↔
      localEdge (connectLocalLocations c) b a) ∧
    localEdgeCount (connectLocalLocations c) = 2 * (c.names.length - 1) ∧
    (∀ p ∈ c.locations, ∀ t, pyStartsWith t "exit:" = true →
      (t ∈ connsAt (connectLocalLocations c) p.1 ↔ t ∈ p.2.connections)) := by
  -- decompose the name list around its last element (the merge-loop hub)
  have hnames_ne : c.names ≠ [] := by
    intro h
    exact hne (List.map_eq_nil_iff.mp h)
  obtain ⟨hub, restNames, hrev⟩ : ∃ h t, c.names.reverse = h :: t := by
    cases hc : c.names.reverse with
    | nil =>
      exact absurd (by rw [← List.reverse_reverse c.names, hc]; rfl) hnames_ne
    | cons h t => exact ⟨h, t, rfl⟩
  have hmemrev : ∀ m, m ∈ c.names ↔ m = hub ∨ m ∈ restNames := fun m => by
    rw [← List.mem_reverse, hrev, List.mem_cons]
  have hrnodup : (hub :: restNames).Nodup := by
    rw [← hrev]
    exact List.nodup_reverse.mpr hnodup
  rw [List.nodup_cons] at hrnodup
  obtain ⟨hhubnr, hrnd⟩ := hrnodup
  have hlen : c.names.length = restNames.length + 1 := by
    rw [← List.length_reverse, hrev]
    rfl
  have hstar := adjStar_get c hub restNames hnodup hrev
  have hres := connectLocal_star_form c hub restNames hext hnodup hrev
  have hresnames : (connectLocalLocations c).names = c.names := by
    rw [hres]
    simp [Chunk.names, List.map_map, Function.comp]
  have hlook : ∀ m, alookup (connectLocalLocations c).locations m =
      (alookup c.locations m).map (starConns c hub restNames m) := by
    intro m
    rw [hres]
    exact alookup_map_snd c.locations (starConns c hub restNames) m
  have hmemT : ∀ m (loc : Location) t,
      t ∈ (starConns c hub restNames m loc).connections ↔
        (t ∈ adjGet (adjStar c hub restNames) m ∨
          (t ∈ loc.connections ∧ pyStartsWith t "exit:" = true)) := by
    intro m loc t
    show t ∈ pySorted (dedupKeepFirst _) ↔ _
    rw [mem_pySorted, mem_dedupKeepFirst, List.mem_append, mem_pySorted,
      List.mem_filter]
  have hstarmem : ∀ m t, t ∈ adjGet (adjStar c hub restNames) m →
      t ∈ c.names ∧ ((m = hub ∧ t ∈ restNames) ∨ (m ∈ restNames ∧ t = hub)) := by
    intro m t ht
    by_cases hmh : m = hub
    · subst hmh
      rw [hstar.1] at ht
      exact ⟨(hmemrev t).mpr (Or.inr ht), Or.inl ⟨rfl, ht⟩⟩
    · by_cases hmr : m ∈ restNames
      · rw [hstar.2.1 m hmr, List.mem_singleton] at ht
        exact ⟨(hmemrev t).mpr (Or.inl ht), Or.inr ⟨hmr, ht⟩⟩
      · rw [hstar.2.2 m hmh hmr] at ht
        simp at ht
  have hedge : ∀ a b, localEdge (connectLocalLocations c) a b ↔
      ((a = hub ∧ b ∈ restNames) ∨ (a ∈ restNames ∧ b = hub)) := by
    intro a b
    constructor
    · rintro ⟨loc, hl, hbc, hbn⟩
      rw [hlook a] at hl
      cases hla : alookup c.locations a with
      | none =>
        rw [hla] at hl
        simp at hl
      | some loc0 =>
        rw [hla] at hl
        injection hl with hl2
        rw [← hl2] at hbc
        rcases (hmemT a loc0 b).mp hbc with hstarm | hexm
        · exact (hstarmem a b hstarm).2
        · exfalso
          rw [hresnames] at hbn
          exact hext (a, loc0) (alookup_mem _ _ _ hla) b hexm.1 hbn
    · have hbuild : ∀ x y, x ∈ c.names → y ∈ c.names →
          y ∈ adjGet (adjStar c hub restNames) x →
          localEdge (connectLocalLocations c) x y := by
        intro x y hx hy hadj
        have hsome := alookup_isSome_of_mem c.locations x hx
        obtain ⟨loc0, hl0⟩ := Option.isSome_iff_exists.mp hsome
        refine ⟨starConns c hub restNames x loc0, ?_, ?_, ?_⟩
        · rw [hlook x, hl0]
          rfl
        · exact (hmemT x loc0 y).mpr (Or.inl hadj)
        · rw [hresnames]
          exact hy
      rintro (⟨rfl, hbr⟩ | ⟨har, rfl⟩)
      · refine hbuild a b ((hmemrev a).mpr (Or.inl rfl))
          ((hmemrev b).mpr (Or.inr hbr)) ?_
        rw [hstar.1]
        exact hbr
      · refine hbuild a b ((hmemrev a).mpr (Or.inr har))
          ((hmemrev b).mpr (Or.inl rfl)) ?_
        rw [hstar.2.1 a har]
        exact List.mem_singleton.mpr rfl
  have hcomps : computeComponents (gatherAdj c) c.names =
      (c.names.map fun n => [n]) := by
    rw [gatherAdj_of_no_names c hext]
    exact computeComponents_empty_adj _ c.names (alookup_map_nil c.locations)
      hnodup
  have hcount0 : localEdgeCount c = 0 := by
    unfold localEdgeCount
    have hz : (c.locations.map fun p =>
        (p.2.connections.filter fun t => t ∈ c.names).length) =
        c.locations.map fun _ => 0 := by
      apply List.map_congr_left
      intro p hp
      rw [List.length_eq_zero, List.filter_eq_nil_iff]
      intro t ht
      simpa using hext p hp t ht
    rw [hz]
    simp
  refine ⟨hresnames, hcomps, hcount0, ?_, ?_, ?_, ?_⟩
  · -- one component covering everything
    intro a b ha hb
    rw [hresnames] at ha hb
    rcases (hmemrev a).mp ha with rfl | har
    · rcases (hmemrev b).mp hb with rfl | hbr
      · exact Relation.ReflTransGen.refl
      · exact Relation.ReflTransGen.single ((hedge _ _).mpr (Or.inl ⟨rfl, hbr⟩))
    · rcases (hmemrev b).mp hb with rfl | hbr
      · exact Relation.ReflTransGen.single ((hedge _ _).mpr (Or.inr ⟨har, rfl⟩))
      · exact Relation.ReflTransGen.trans
          (Relation.ReflTransGen.single ((hedge _ _).mpr (Or.inr ⟨har, rfl⟩)))
          (Relation.ReflTransGen.single ((hedge _ _).mpr (Or.inl ⟨rfl, hbr⟩)))
  · -- symmetry
    intro a b
    rw [hedge, hedge]
    tauto
  · -- edge count
    unfold localEdgeCount
    rw [hresnames, hres]
    have hfilterlen : ∀ p ∈ c.locations,
        (((starConns c hub restNames p.1 p.2).connections).filter
          (fun t => t ∈ c.names)).length =
          (adjGet (adjStar c hub restNames) p.1).length := by
      intro p hp
      have hnodupX : (starConns c hub restNames p.1 p.2).connections.Nodup :=
        nodup_pySorted _ (nodup_dedupKeepFirst _)
      have hfnd : (((starConns c hub restNames p.1 p.2).connections).filter
          (fun t => t ∈ c.names)).Nodup := hnodupX.filter _
      have hadjnd : (adjGet (adjStar c hub restNames) p.1).Nodup := by
        by_cases hmh : p.1 = hub
        · rw [hmh, hstar.1]
          exact hrnd
        · by_cases hmr : p.1 ∈ restNames
          · rw [hstar.2.1 _ hmr]
            simp
          · rw [hstar.2.2 _ hmh hmr]
            simp
      have hiff : ∀ t,
          t ∈ (((starConns c hub restNames p.1 p.2).connections).filter
            (fun t => t ∈ c.names)) ↔
            t ∈ adjGet (adjStar c hub restNames) p.1 := by
        intro t
        rw [List.mem_filter]
        constructor
        · rintro ⟨htc, htn⟩
          rcases (hmemT p.1 p.2 t).mp htc with h | h
          · exact h
          · exact absurd (by simpa using htn) (hext p hp t h.1)
        · intro ht
          refine ⟨(hmemT p.1 p.2 t).mpr (Or.inl ht), ?_⟩
          simpa using (hstarmem p.1 t ht).1
      exact List.Perm.length_eq
        ((List.perm_ext_iff_of_nodup hfnd hadjnd).mpr hiff)
    have hmapG : (c.locations.map fun p =>
        (((starConns c hub restNames p.1 p.2).connections).filter
          (fun t => t ∈ c.names)).length) =
        c.locations.map fun p =>
          (if p.1 = hub then restNames.length else 1) := by
      apply List.map_congr_left
      intro p hp
      rw [hfilterlen p hp]
      by_cases hmh : p.1 = hub
      · rw [hmh, hstar.1, if_pos rfl]
      · rw [if_neg hmh]
        have hpn : p.1 ∈ c.names := List.mem_map_of_mem (·.1) hp
        rcases (hmemrev p.1).mp hpn with he | hmr
        · exact absurd he hmh
        · rw [hstar.2.1 _ hmr]
          rfl
    have hsum : ((c.names.map fun n =>
        (if n = hub then restNames.length else 1)).sum) =
        2 * restNames.length := by
      have hperm : c.names.Perm (hub :: restNames) := by
        rw [← hrev]
        exact (List.reverse_perm c.names).symm
      rw [List.Perm.sum_eq (List.Perm.map _ hperm)]
      rw [List.map_cons, List.sum_cons, if_pos rfl]
      have hmap1 : (restNames.map fun n =>
          (if n = hub then restNames.length else 1)) =
          restNames.map fun _ => 1 :=
        List.map_congr_left (fun n hn =>
          if_neg (fun he => hhubnr (by rw [← he]; exact hn)))
      rw [hmap1]
      have hone : ∀ (l : List String), (l.map fun _ => (1 : Nat)).sum = l.length := by
        intro l
        induction l with
        | nil => rfl
        | cons x t ih =>
          rw [List.map_cons, List.sum_cons, ih, List.length_cons]
          omega
      rw [hone]
      omega
    have hcompose : ((c.locations.map fun p =>
        (p.1, starConns c hub restNames p.1 p.2)).map fun p =>
          (p.2.connections.filter fun t => t ∈ c.names).length) =
        c.locations.map fun p =>
          (((starConns c hub restNames p.1 p.2).connections).filter
            (fun t => t ∈ c.names)).length := by
      rw [List.map_map]
      rfl
    have hfst : (c.locations.map fun p =>
        (if p.1 = hub then restNames.length else 1)) =
        c.names.map fun n => (if n = hub then restNames.length else 1) := by
      unfold Chunk.names
      rw [List.map_map]
      rfl
    calc ((c.locations.map fun p => (p.1, starConns c hub restNames p.1 p.2)).map
            fun p => (p.2.connections.filter fun t => t ∈ c.names).length).sum
        = (c.locations.map fun p =>
            (((starConns c hub restNames p.1 p.2).connections).filter
              (fun t => t ∈ c.names)).length).sum := by rw [hcompose]
      _ = (c.names.map fun n => (if n = hub then restNames.length else 1)).sum := by
            rw [hmapG, hfst]
      _ = 2 * restNames.length := hsum
      _ = 2 * (c.names.length - 1) := by omega
  · -- exit tokens untouched
    intro p hp t ht
    have hconns : connsAt (connectLocalLocations c) p.1 =
        (starConns c hub restNames p.1 p.2).connections := by
      unfold connsAt
      rw [hlook p.1, alookup_self_of_nodup c.locations hnodup p hp]
      rfl
    rw [hconns, hmemT p.1 p.2 t]
    constructor
    · rintro (hstarm | hexm)
      · exfalso
        have hfalse := hnoexit t (hstarmem p.1 t hstarm).1
        rw [ht] at hfalse
        cases hfalse
      · exact hexm.1
    · intro htc
      exact Or.inr ⟨htc, ht⟩

/-- A concrete chunk state entering connectivity repair: three placeholder
locations, one exit edge, no local edges. -/
def c5Chunk : Chunk :=
  ⟨[("LocationA", storedLoc ["exit:q+1,r+0"]),
    ("LocationB", storedLoc []),
    ("LocationC", storedLoc [])]⟩

/-- Witness for claim C5 at a concrete chunk. -/
theorem c5_witness :
    (connectLocalLocations c5Chunk).names = c5Chunk.names ∧
    computeComponents (gatherAdj c5Chunk) c5Chunk.names =
      (c5Chunk.names.map fun n => [n]) ∧
    localEdgeCount c5Chunk = 0 ∧
    Relation.ReflTransGen (localEdge (connectLocalLocations c5Chunk))
      "LocationA" "LocationB" ∧
    (localEdge (connectLocalLocations c5Chunk) "LocationA" "LocationC" ↔
      localEdge (connectLocalLocations c5Chunk) "LocationC" "LocationA") ∧
    localEdgeCount (connectLocalLocations c5Chunk) =
      2 * (c5Chunk.names.length - 1) ∧
    ("exit:q+1,r+0" ∈ connsAt (connectLocalLocations c5Chunk) "LocationA" ↔
      "exit:q+1,r+0" ∈ (storedLoc ["exit:q+1,r+0"]).connections) := by
  have h := c5_connectivity_repair c5Chunk (by decide) (by decide) (by decide)
    (by decide)
  refine ⟨h.1, h.2.1, h.2.2.1, ?_, h.2.2.2.2.1 _ _, h.2.2.2.2.2.1, ?_⟩
  · exact h.2.2.2.1 "LocationA" "LocationB" (by rw [h.1]; decide)
      (by rw [h.1]; decide)
  · exact h.2.2.2.2.2.2 ("LocationA", storedLoc ["exit:q+1,r+0"]) (by decide)
      "exit:q+1,r+0" (by decide)

/-! The generation pipeline really does hand `_connect_local_locations`
chunks of the shape assumed by `c5_connectivity_repair`: placeholder names
only, and every connection token carrying the exit marker. -/

/-- Every connection token of every location carries the exit marker. -/
def allExitTokens (c : Chunk) : Prop :=
  ∀ p ∈ c.locations, ∀ t ∈ p.2.connections, pyStartsWith t "exit:" = true

theorem allExitTokens_appendConn (c : Chunk) (ln d : String)
    (h : allExitTokens c) :
    allExitTokens (c.appendConn ln ("exit:" ++ d)) := by
  intro p hp t ht
  unfold Chunk.appendConn at hp
  obtain ⟨p0, hp0, rfl⟩ := List.mem_map.mp hp
  by_cases hq : p0.1 = ln
  · rw [if_pos hq] at ht
    simp only [List.mem_append, List.mem_singleton] at ht
    rcases ht with ht | rfl
    · exact h p0 hp0 t ht
    · exact pyStartsWith_exit_append d
  · rw [if_neg hq] at ht
    exact h p0 hp0 t ht

theorem processBacklinkDir_props (g : Rng) (dir : String) (c : Chunk)
    (s : RState) (h : allExitTokens c) :
    (processBacklinkDir g dir c s).1.names = c.names ∧
    allExitTokens (processBacklinkDir g dir c s).1 := by
  unfold processBacklinkDir
  by_cases ha : availableLocs c dir ≠ []
  · rw [if_pos ha]
    cases hch : (pyChoice g s (availableLocs c dir)).1 with
    | some chosen =>
      simp only [hch]
      exact ⟨names_appendConn c chosen _, allExitTokens_appendConn c chosen dir h⟩
    | none =>
      simp only [hch]
      exact ⟨trivial, h⟩
  · rw [if_neg ha]
    rw [not_ne_iff] at ha
    rw [if_neg (by rw [ha]; exact fun hc => hc rfl)]
    exact ⟨rfl, h⟩

theorem applyNeighborBacklinks_props (g : Rng) :
    ∀ (dirs : List String) (c : Chunk) (s : RState), allExitTokens c →
    ((dirs.foldl (fun (acc : Chunk × RState) dir =>
        processBacklinkDir g dir acc.1 acc.2) (c, s)).1.names = c.names ∧
      allExitTokens (dirs.foldl (fun (acc : Chunk × RState) dir =>
        processBacklinkDir g dir acc.1 acc.2) (c, s)).1) := by
  intro dirs
  induction dirs with
  | nil => exact fun c s h => ⟨rfl, h⟩
  | cons d rest ih =>
    intro c s h
    rw [List.foldl_cons]
    have hd := processBacklinkDir_props g d c s h
    have hrec := ih (processBacklinkDir g d c s).1
      (processBacklinkDir g d c s).2 hd.2
    constructor
    · rw [hrec.1, hd.1]
    · exact hrec.2

theorem exitLoop_props (g : Rng) : ∀ (probs : List ℚ) (dirs : List String)
    (c : Chunk) (s : RState), allExitTokens c →
    ((exitLoop g probs dirs c s).1.names = c.names ∧
      allExitTokens (exitLoop g probs dirs c s).1) := by
  intro probs
  induction probs with
  | nil => exact fun dirs c s h => ⟨rfl, h⟩
  | cons p rest ih =>
    intro dirs c s h
    simp only [exitLoop, pyRandom]
    by_cases hd : dirs = []
    · rw [if_pos hd]
      exact ⟨rfl, h⟩
    · rw [if_neg hd]
      by_cases hu : 1 - p ≤ g.floats s.fi
      · rw [if_pos hu]
        cases hch : (pyChoice g { s with fi := s.fi + 1 } dirs).1 with
        | some chosen =>
          simp only [hch]
          by_cases ha : availableLocs c chosen ≠ []
          · rw [if_pos ha]
            cases hcl : (pyChoice g
                (pyChoice g { s with fi := s.fi + 1 } dirs).2
                (availableLocs c chosen)).1 with
            | some ln =>
              simp only [hcl]
              constructor
              · rw [(ih _ _ _ (allExitTokens_appendConn c ln chosen h)).1,
                  names_appendConn]
              · exact (ih _ _ _ (allExitTokens_appendConn c ln chosen h)).2
            | none =>
              simp only [hcl]
              exact ih _ c _ h
          · rw [if_neg ha]
            exact ih _ c _ h
        | none =>
          simp only [hch]
          exact ih _ c _ h
      · rw [if_neg hu]
        exact ih _ c _ h

/-- No placeholder name carries the exit marker. -/
theorem buildLocNames_no_exit (k : Nat) :
    ∀ n ∈ buildLocNames k, pyStartsWith n "exit:" = false := by
  intro n hn
  unfold buildLocNames at hn
  rw [List.mem_append] at hn
  rcases hn with hn | hn
  · obtain ⟨i, _, rfl⟩ := List.mem_map.mp hn
    rfl
  · obtain ⟨i, _, rfl⟩ := List.mem_map.mp hn
    rfl

/-- The placeholder names are distinct (the secret count never exceeds 2). -/
theorem buildLocNames_nodup (k : Nat) (hk : k ≤ 2) :
    (buildLocNames k).Nodup := by
  interval_cases k <;> decide

/-- Claim C5 side condition: for every successful run of generation steps
1–3 (any store, coordinate, arrival direction and random source), the chunk
handed to `_connect_local_locations` satisfies every hypothesis of
`c5_connectivity_repair`: its names are the distinct placeholder names, it
is nonempty, no name carries the exit marker, and no connection token is a
location name. -/
theorem step4_entry_satisfies (store : Store) (q r : Int)
    (fd : Option String) (g : Rng) (s : RState) (c3 : Chunk) (s3 : RState)
    (h : addAdditionalExits g store q r
      (applyNeighborBacklinks g
        (match fd, buildLocNames (rollSecretCount g s).1 with
          | some f, entry :: _ =>
            Chunk.appendConn
              ⟨(buildLocNames (rollSecretCount g s).1).map fun ln =>
                (ln, defaultLocation ln)⟩ entry ("exit:" ++ flipDirection f)
          | _, _ =>
            ⟨(buildLocNames (rollSecretCount g s).1).map fun ln =>
              (ln, defaultLocation ln)⟩)
        (getNeighborData store q r) (rollSecretCount g s).2).1
      (applyNeighborBacklinks g
        (match fd, buildLocNames (rollSecretCount g s).1 with
          | some f, entry :: _ =>
            Chunk.appendConn
              ⟨(buildLocNames (rollSecretCount g s).1).map fun ln =>
                (ln, defaultLocation ln)⟩ entry ("exit:" ++ flipDirection f)
          | _, _ =>
            ⟨(buildLocNames (rollSecretCount g s).1).map fun ln =>
              (ln, defaultLocation ln)⟩)
        (getNeighborData store q r) (rollSecretCount g s).2).2 = .ok (c3, s3)) :
    (∀ p ∈ c3.locations, ∀ t ∈ p.2.connections, t ∉ c3.names) ∧
    c3.names.Nodup ∧ c3.locations ≠ [] ∧
    (∀ n ∈ c3.names, pyStartsWith n "exit:" = false) := by
  set k := (rollSecretCount g s).1 with hkdef
  have hk : k ≤ 2 := rollSecret_le_two g s
  set c0 : Chunk := ⟨(buildLocNames k).map fun ln => (ln, defaultLocation ln)⟩
    with hc0
  have hfst : ∀ (l : List String),
      (l.map fun ln => (ln, defaultLocation ln)).map (·.1) = l := by
    intro l
    induction l with
    | nil => rfl
    | cons a t ih2 => simp [ih2]
  have hc0names : c0.names = buildLocNames k := by
    rw [hc0]
    exact hfst (buildLocNames k)
  have hc0exit : allExitTokens c0 := by
    intro p hp t ht
    rw [hc0] at hp
    obtain ⟨ln, _, rfl⟩ := List.mem_map.mp hp
    simp [defaultLocation] at ht
  set c1 := (match fd, buildLocNames k with
    | some f, entry :: _ =>
      Chunk.appendConn c0 entry ("exit:" ++ flipDirection f)
    | _, _ => c0) with hc1
  have hc1props : c1.names = buildLocNames k ∧ allExitTokens c1 := by
    rw [hc1]
    cases fd with
    | none => exact ⟨hc0names, hc0exit⟩
    | some f =>
      cases hb : buildLocNames k with
      | nil =>
        constructor
        · show c0.names = []
          rw [hc0names, hb]
        · show allExitTokens c0
          exact hc0exit
      | cons entry rest =>
        constructor
        · show (c0.appendConn entry ("exit:" ++ flipDirection f)).names =
            entry :: rest
          rw [names_appendConn, hc0names, hb]
        · show allExitTokens (c0.appendConn entry ("exit:" ++ flipDirection f))
          exact allExitTokens_appendConn c0 entry _ hc0exit
  set cs2 := applyNeighborBacklinks g c1 (getNeighborData store q r)
    (rollSecretCount g s).2 with hcs2
  have hcs2props : cs2.1.names = buildLocNames k ∧ allExitTokens cs2.1 := by
    have hh := applyNeighborBacklinks_props g
      (allDirections.filter fun dir =>
        connectingLocs ((alookup (getNeighborData store q r) dir).getD ⟨[]⟩)
          ("exit:" ++ flipDirection dir) ≠ []) c1 (rollSecretCount g s).2
      hc1props.2
    constructor
    · rw [hcs2]
      show (applyNeighborBacklinks g c1 _ _).1.names = _
      unfold applyNeighborBacklinks
      rw [hh.1, hc1props.1]
    · rw [hcs2]
      show allExitTokens (applyNeighborBacklinks g c1 _ _).1
      unfold applyNeighborBacklinks
      exact hh.2
  have hc3 : c3.names = buildLocNames k ∧ allExitTokens c3 := by
    unfold addAdditionalExits at h
    simp only [] at h
    by_cases h6 : (usedEdges cs2.1).length ≥ 6
    · rw [if_pos h6] at h
      injection h with h2
      injection h2 with h3 h4
      rw [← h3]
      exact hcs2props
    · rw [if_neg h6] at h
      cases hpm : probMap (usedEdges cs2.1).length with
      | none =>
        rw [hpm] at h
        cases h
      | some probs =>
        rw [hpm] at h
        injection h with h2
        have hl := exitLoop_props g probs
          (unexploredDirs store q r (usedEdges cs2.1)) cs2.1 cs2.2
          hcs2props.2
        have h3 : (exitLoop g probs
            (unexploredDirs store q r (usedEdges cs2.1)) cs2.1 cs2.2).1 = c3 := by
          rw [h2]
        rw [← h3]
        exact ⟨by rw [hl.1, hcs2props.1], hl.2⟩
  have hnoexit : ∀ n ∈ c3.names, pyStartsWith n "exit:" = false := by
    rw [hc3.1]
    exact buildLocNames_no_exit k
  refine ⟨?_, ?_, ?_, hnoexit⟩
  · intro p hp t ht htn
    have := hc3.2 p hp t ht
    rw [hnoexit t htn] at this
    cases this
  · rw [hc3.1]
    exact buildLocNames_nodup k hk
  · intro hnil
    have : c3.names = [] := by
      unfold Chunk.names
      rw [hnil]
      rfl
    rw [hc3.1] at this
    exact absurd this (by
      unfold buildLocNames
      intro hc
      have := congrArg List.length hc
      simp at this)

end HexGame
